import Mathlib

/-!
Verification of the cryptographic core: SM9/BN256 curve arithmetic
(sm9/bn256/gfp_decl.go), the SM4 block cipher assembly (sm4/asm_amd64.s),
and the SM3 compression assembly (arm64).

The Go curve code calls field primitives (gfpAdd, gfpSub, gfpMul, gfpNeg,
gfP.Invert, gfP.Select) that are declared but implemented in assembly files
not present here; those are modelled from the specification.  A field
element is modelled by the natural number it represents in GF(p); the
Montgomery representation described by the specification is a bijection on
field elements under which gfpMul acts as plain modular multiplication of
the represented values and the constant one represents 1, so comparisons
against zero and one in the curve code translate to comparisons with the
literals 0 and 1.
-/

set_option maxRecDepth 8000

/-- Modelled from the spec: the BN parameter u of the SM9 curve
(the exponent of gfP12ExpU, see the claim on the addition chain). -/
def bnU : Nat := 0x600000000058F98A

/-- Modelled from the spec: the fixed 256-bit BN256 prime modulus p.
For a Barreto-Naehrig curve, p = 36u⁴ + 36u³ + 24u² + 6u + 1; the literal
below is that value for u = bnU (theorem bnP_bn_formula), which is the
SM9 modulus.  It is stated as a literal so that kernel evaluation of the
field operations stays shallow. -/
def bnP : Nat := 0xb640000002a3a6f1d603ab4ff58ec74521f2934b1a7aeedbe56f9b27e351457d

/-- The modulus satisfies the BN parametrisation at u = bnU. -/
theorem bnP_bn_formula : bnP = 36 * bnU ^ 4 + 36 * bnU ^ 3 + 24 * bnU ^ 2 + 6 * bnU + 1 := by
  norm_num [bnP, bnU]

/-- Modelled from the spec: the order r of the BN256 group G1,
r = 36u⁴ + 36u³ + 18u² + 6u + 1 (theorem bnR_bn_formula). -/
def bnR : Nat := 0xb640000002a3a6f1d603ab4ff58ec74449f2934b18ea8beee56ee19cd69ecf25

/-- The group order satisfies the BN parametrisation at u = bnU. -/
theorem bnR_bn_formula : bnR = 36 * bnU ^ 4 + 36 * bnU ^ 3 + 18 * bnU ^ 2 + 6 * bnU + 1 := by
  norm_num [bnR, bnU]

/-- A field element of GF(p), by the value it represents. -/
abbrev gfP := Nat

/-- Modelled from the spec: Add(c, a, b): c = a + b mod p. -/
def gfpAdd (a b : gfP) : gfP := (a + b) % bnP

/-- Modelled from the spec: Sub(c, a, b): c = a - b mod p (add p first when a < b). -/
def gfpSub (a b : gfP) : gfP := (a + (bnP - b)) % bnP

/-- Modelled from the spec: Neg(c, a): c = p - a when a is nonzero, else 0. -/
def gfpNeg (a : gfP) : gfP := (bnP - a) % bnP

/-- Modelled from the spec: Mul(c, a, b): Montgomery multiplication, which is
plain modular multiplication of the represented values. -/
def gfpMul (a b : gfP) : gfP := (a * b) % bnP

/-- Modelled from the spec: Select(c, a, b, cond): c = a if cond = 1 else b. -/
def gfpSelect (a b : gfP) (cond : Nat) : gfP := if cond = 1 then a else b

/-- Binary modular exponentiation, structural in a fuel argument so that the
kernel can evaluate it.  Computes b ^ e mod p once the fuel exceeds the bit
length of e. -/
def powModAux : Nat → Nat → Nat → Nat → Nat
  | 0, _, _, acc => acc
  | fuel+1, b, e, acc =>
    if e = 0 then acc
    else powModAux fuel ((b * b) % bnP) (e / 2) (if e % 2 = 1 then (acc * b) % bnP else acc)

/-- Modelled from the spec: Invert(c, a): modular inverse by Fermat, a^(p-2). -/
def gfpInvert (a : gfP) : gfP := powModAux 300 a (bnP - 2) 1

/-- The field constant zero (the represented value of the Montgomery zero). -/
def zero : gfP := 0

/-- The field constant one (the represented value of the Montgomery one). -/
def one : gfP := 1

/-- Translation of newGFp(5): the curve coefficient b of y² = x³ + 5. -/
def curveB : gfP := 5

/-- Translation of the curvePoint struct: Jacobian coordinates (x, y, z)
with the cached t field. -/
structure curvePoint where
  x : gfP
  y : gfP
  z : gfP
  t : gfP
deriving DecidableEq

/-- Translation of curveGen: the generator of G1, with the affine
coordinates given in the source (z = t = 1). -/
def curveGen : curvePoint :=
  { x := 0x93DE051D62BF718FF5ED0704487D01D6E1E4086909DC3280E8C4E4817C66DDDD,
    y := 0x21FE8DDA4F21E607631065125C395BBC1C1C00CBFA6024350C464CD70A3EA616,
    z := one,
    t := one }

/-- Translation of curvePoint.SetInfinity: (0, 1, 0, 0). -/
def curvePoint.SetInfinity : curvePoint :=
  { x := zero, y := one, z := zero, t := zero }

/-- Translation of curvePoint.IsInfinity: z = 0. -/
def curvePoint.IsInfinity (c : curvePoint) : Bool := c.z == zero

/-- Translation of curvePoint.polynomial: x³ + curveB. -/
def curvePoint.polynomial (x : gfP) : gfP :=
  gfpAdd (gfpMul (gfpMul x x) x) curveB

/-- Translation of curvePoint.Double (the dbl-2009-l formula as written in
the source).  The source writes into c's fields and never writes c.t; the
result therefore keeps the t field of the receiver, which we take to be the
input point (the caller's record before the call is irrelevant to every
claim, all of which look only at x, y, z). -/
def curvePoint.Double (a : curvePoint) : curvePoint :=
  let A := gfpMul a.x a.x
  let B := gfpMul a.y a.y
  let C := gfpMul B B
  let t1 := gfpAdd a.x B
  let t2 := gfpMul t1 t1
  let t3 := gfpSub t2 A
  let t4 := gfpSub t3 C
  let d := gfpAdd t4 t4
  let t5 := gfpAdd A A
  let e := gfpAdd t5 A
  let f := gfpMul e e
  let t6 := gfpAdd d d
  let cx := gfpSub f t6
  let cz1 := gfpMul a.y a.z
  let cz := gfpAdd cz1 cz1
  let t7 := gfpAdd C C
  let t8 := gfpAdd t7 t7
  let t9 := gfpAdd t8 t8
  let cy1 := gfpSub d cx
  let t10 := gfpMul e cy1
  let cy := gfpSub t10 t9
  { x := cx, y := cy, z := cz, t := a.t }

/-- Translation of the main branch of curvePoint.Add (the add-2007-bl
formula as written in the source, for two non-infinity inputs, including
the equality checks; note xEqual compares h with zero but yEqual compares
s2 - s1 with ONE, exactly as the source does). -/
def curvePoint.addMain (a b : curvePoint) : curvePoint :=
  let z12 := gfpMul a.z a.z
  let z22 := gfpMul b.z b.z
  let u1 := gfpMul a.x z22
  let u2 := gfpMul b.x z12
  let ta := gfpMul b.z z22
  let s1 := gfpMul a.y ta
  let tb := gfpMul a.z z12
  let s2 := gfpMul b.y tb
  let h := gfpSub u2 u1
  let xEqual := h = zero
  let tc := gfpAdd h h
  let i := gfpMul tc tc
  let j := gfpMul h i
  let td := gfpSub s2 s1
  let yEqual := td = one
  if xEqual ∧ yEqual then curvePoint.Double a
  else
    let r := gfpAdd td td
    let v := gfpMul u1 i
    let t4 := gfpMul r r
    let te := gfpAdd v v
    let t6 := gfpSub t4 j
    let cx := gfpSub t6 te
    let tf := gfpSub v cx
    let t4b := gfpMul s1 j
    let t6b := gfpAdd t4b t4b
    let t4c := gfpMul r tf
    let cy := gfpSub t4c t6b
    let tg := gfpAdd a.z b.z
    let t4d := gfpMul tg tg
    let th := gfpSub t4d z12
    let t4e := gfpSub th z22
    let cz := gfpMul t4e h
    { x := cx, y := cy, z := cz, t := a.t }

/-- Translation of curvePoint.Add: the early infinity returns, then the
main formula.  The source reads every input field before overwriting the
corresponding output field, so the aliased call c.Add(a, a) computes the
same values as this function at (a, a). -/
def curvePoint.Add (a b : curvePoint) : curvePoint :=
  if a.IsInfinity then b
  else if b.IsInfinity then a
  else curvePoint.addMain a b

/-- Translation of curvePoint.MakeAffine: early return when z = 1, the
canonical infinity (0, 1, 0, 0) when z = 0, else divide by powers of the
inverse of z and set z = t = 1. -/
def curvePoint.MakeAffine (c : curvePoint) : curvePoint :=
  if c.z = one then c
  else if c.z = zero then { x := zero, y := one, z := c.z, t := zero }
  else
    let zInv := gfpInvert c.z
    let ta := gfpMul c.y zInv
    let zInv2 := gfpMul zInv zInv
    let cx := gfpMul c.x zInv2
    let cy := gfpMul ta zInv2
    { x := cx, y := cy, z := one, t := one }

/-- Translation of curvePoint.Select: component-wise constant-time select. -/
def curvePoint.Select (p1 p2 : curvePoint) (cond : Nat) : curvePoint :=
  { x := gfpSelect p1.x p2.x cond,
    y := gfpSelect p1.y p2.y cond,
    z := gfpSelect p1.z p2.z cond,
    t := gfpSelect p1.t p2.t cond }

/-- Modelled from the spec: subtle.ConstantTimeByteEq returns 1 when the
two bytes are equal and 0 otherwise. -/
def constantTimeByteEq (x y : Nat) : Nat := if x = y then 1 else 0

/-- A curvePointTable holds the first 15 multiples of a point at offset -1. -/
def curvePointTable := Fin 15 → curvePoint

/-- Selecting with condition 1 returns the first point. -/
theorem curvePoint.Select_one (p1 p2 : curvePoint) : curvePoint.Select p1 p2 1 = p1 := rfl

/-- Selecting with condition 0 returns the second point. -/
theorem curvePoint.Select_zero (p1 p2 : curvePoint) : curvePoint.Select p1 p2 0 = p2 := rfl

/-- Translation of curvePointTable.Select: the out-of-range guard (the
source terminates the process; modelled as none), then the fold over the
15 table entries, selecting entry i in constant time when i + 1 = n.  The
source's loop is written out as the nested application it computes. -/
def curvePointTable.Select (table : curvePointTable) (n : Nat) : Option curvePoint :=
  if 16 ≤ n then none
  else some
    (curvePoint.Select (table 14)
      (curvePoint.Select (table 13)
        (curvePoint.Select (table 12)
          (curvePoint.Select (table 11)
            (curvePoint.Select (table 10)
              (curvePoint.Select (table 9)
                (curvePoint.Select (table 8)
                  (curvePoint.Select (table 7)
                    (curvePoint.Select (table 6)
                      (curvePoint.Select (table 5)
                        (curvePoint.Select (table 4)
                          (curvePoint.Select (table 3)
                            (curvePoint.Select (table 2)
                              (curvePoint.Select (table 1)
                                (curvePoint.Select (table 0) curvePoint.SetInfinity
                                  (constantTimeByteEq 1 n))
                                (constantTimeByteEq 2 n))
                              (constantTimeByteEq 3 n))
                            (constantTimeByteEq 4 n))
                          (constantTimeByteEq 5 n))
                        (constantTimeByteEq 6 n))
                      (constantTimeByteEq 7 n))
                    (constantTimeByteEq 8 n))
                  (constantTimeByteEq 9 n))
                (constantTimeByteEq 10 n))
              (constantTimeByteEq 11 n))
            (constantTimeByteEq 12 n))
          (constantTimeByteEq 13 n))
        (constantTimeByteEq 14 n))
      (constantTimeByteEq 15 n))

/-- Bit i of a scalar, as Go big.Int.Bit reads it. -/
def scalarBit (k i : Nat) : Bool := k / 2 ^ i % 2 = 1

/-- Bit length of a scalar, as Go big.Int.BitLen: 0 for 0, else the index
of the highest set bit plus one.  Structural in a fuel argument large
enough for every scalar below 2^512. -/
def bitLenAux : Nat → Nat → Nat
  | 0, _ => 0
  | fuel+1, n => if n = 0 then 0 else bitLenAux fuel (n / 2) + 1

/-- Bit length of a scalar below 2^512. -/
def bitLen (n : Nat) : Nat := bitLenAux 512 n

/-- One iteration of the scalar-multiplication loop at bit index i:
t = Double(sum), then Add(t, a) when bit i of the scalar is set, else t. -/
def curvePoint.mulStep (a : curvePoint) (k i : Nat) (sum : curvePoint) : curvePoint :=
  let t := curvePoint.Double sum
  if scalarBit k i then curvePoint.Add t a else t

/-- The scalar-multiplication loop, counting the remaining iterations; the
iteration with counter value i+1 runs at bit index i, so a count of n+1
processes bit indices n, n-1, ..., 0. -/
def curvePoint.mulLoop (a : curvePoint) (k : Nat) : Nat → curvePoint → curvePoint
  | 0, sum => sum
  | i+1, sum => curvePoint.mulLoop a k i (curvePoint.mulStep a k i sum)

/-- Translation of curvePoint.Mul: the double-and-add loop from bit index
BitLen(scalar) down to 0 inclusive, starting from the point at infinity. -/
def curvePoint.Mul (a : curvePoint) (scalar : Nat) : curvePoint :=
  curvePoint.mulLoop a scalar (bitLen scalar + 1) curvePoint.SetInfinity


/-- A chunk of the scalar-multiplication loop: m iterations with bit
indices hi, hi-1, ..., hi-m+1. -/
def curvePoint.mulChunk (a : curvePoint) (k : Nat) : Nat → Nat → curvePoint → curvePoint
  | _, 0, s => s
  | hi, m+1, s => curvePoint.mulChunk a k (hi - 1) m (curvePoint.mulStep a k hi s)

/-- Splitting the scalar-multiplication loop: the first m of n+m
iterations form a chunk starting at bit index n+m-1. -/
theorem curvePoint.mulLoop_split (a : curvePoint) (k n : Nat) :
    ∀ (m : Nat) (s : curvePoint),
      curvePoint.mulLoop a k (n + m) s =
        curvePoint.mulLoop a k n (curvePoint.mulChunk a k (n + m - 1) m s) := by
  intro m
  induction m with
  | zero => intro s; rfl
  | succ m ih =>
      intro s
      have h1 : n + (m + 1) = (n + m) + 1 := by omega
      rw [h1]
      show curvePoint.mulLoop a k (n + m) (curvePoint.mulStep a k (n + m) s) = _
      rw [ih (curvePoint.mulStep a k (n + m) s)]
      have h2 : n + m + 1 - 1 = n + m := by omega
      rw [h2]
      rfl

def c4State1 : curvePoint :=
  { x := 0x6bf1cf98ec927b236024af859a8f6ab0493e48a1244494aa839311c37a245ca2,
    y := 0x6537102c5cebff6c755198e3f0f78f15c8759d88a862c3fd904dad006ac3c2f6,
    z := 0x6e5209422208d0580edff6fc46e83a0c1cd96526c40b0c37fd35239c413f7ad4,
    t := 1 }

def c4State2 : curvePoint :=
  { x := 0x247bd5da50882234b47ac1ca1716ee22e03cf922b69481ddf1fdf019a8c4bdc3,
    y := 0x5133252acb584082201a459bd202b0aa359afb9c75eeffcf65bb748ac6d26223,
    z := 0x749f2d139a3016ed3e20afe259325895468b671cbea79840b3c0d2069c30d424,
    t := 1 }

def c4State3 : curvePoint :=
  { x := 0x903700d7d13eac3ceb84dd304c192d16947404db2af9ec2b70b43a4295274ffe,
    y := 0x496ab86ef9012c6c83f7a1892d4f8e905d1c2409e634f176475045362cb628cc,
    z := 0x69d763748723f6224779384e76e9ef637de48424293b31605e620bbe5cf3a287,
    t := 1 }

def c4State4 : curvePoint :=
  { x := 0x8c0a2d2448f59e3810ea063615ab5a38d289b952b430578586e50a74c0ed9539,
    y := 0x05b2d7c58ab28fe6eaf45922a6cbe474d719bbedb0d1b0cbcd167c22268995ab,
    z := 0xa2e695a840b735a171dd731332797004af6a59ec10886577a43e3c6629b20535,
    t := 1 }

def c4State5 : curvePoint :=
  { x := 0x4c471549fe04512aaa15b6cf769c2b7ea361a75c836c3452381c4b7a44b6385b,
    y := 0x3f258c92727a80abf6e19f6ddccedc51a04ec86bd825ada22eee62e4d3959697,
    z := 0x4627e34c84de572eb3a40558b9cd664563ce3b474f79a0ba315d266f1a26a2b3,
    t := 1 }

def c4State6 : curvePoint :=
  { x := 0xa2052f825abfe816d3661dd57dae5369c27aad2b7f98f149b9c8aef4d251cea0,
    y := 0xa47d05b39d60a9bd352d60a099faae833e8dd2fb3935a0eeb092395a2fbd775d,
    z := 0x054e9af9f1ff040019ce8c82f6ec6e9cecf850c2bb8a7e9a02e1580f8857d3eb,
    t := 1 }

def c4State7 : curvePoint :=
  { x := 0x43edd23accf290d2b6622458e60c51b10715ef70c04fe635967a03d1f8bdd324,
    y := 0x3ce4fb862b478dac4c4732e4cc57b1d45a2efeb79ef635c18739370b773067ec,
    z := 0x704f15d9fecf94e1c4017accd59ece5d613d84dbe03ca54bebb1a98805e81ada,
    t := 1 }

def c4State8 : curvePoint :=
  { x := 0x9d12ed4c3162fe34ed0ebef5c0ff4318de6264eabb62a7283b4f0780e7854ebc,
    y := 0x03d10bbbe28479292450ca41ebdb98d09b3f3e480c74e5c913f8d862e095b3ec,
    z := 0x69ff10c1c4f1210360994892b6a72ff1a490344e1c3a0203d89bd62cdbd3f3b7,
    t := 1 }

/-- C1.  The claim says that for equal points, and in particular for the
aliased call Add(c, a, a), Add produces the result of Double.  The code
instead compares s2 - s1 against ONE in its yEqual test (the bug flagged
in the design notes), so for a = b = curveGen the doubling branch is not
taken, the generic formula runs with h = 0, and the result has Z = 0
(the point at infinity) while Double(curveGen) does not. -/
theorem curvePoint_Add_equal_points_bug :
    (¬ curvePoint.IsInfinity curveGen = true) ∧
    gfpMul curveGen.x (gfpMul curveGen.z curveGen.z) =
      gfpMul curveGen.x (gfpMul curveGen.z curveGen.z) ∧
    gfpMul curveGen.y (gfpMul curveGen.z (gfpMul curveGen.z curveGen.z)) =
      gfpMul curveGen.y (gfpMul curveGen.z (gfpMul curveGen.z curveGen.z)) ∧
    (curvePoint.Add curveGen curveGen).z = 0 ∧
    (curvePoint.Double curveGen).z ≠ 0 := by
  refine ⟨?_, rfl, rfl, ?_, ?_⟩ <;> decide

/-- The Jacobian representative of the negated base point used by the C9
counterexample: it represents -[5]curveGen with z-coordinate chosen so
that s2 - s1 = 1, the exact value the buggy yEqual test looks for. -/
def c9B : curvePoint :=
  { x := 0x4dd49a10a77313e5d86099e19eb303ad7b5beb12afd985abf02f1b64ebdddb47,
    y := 0x5b2000000151d378eb01d5a7fac763a290f949a58d3d776df2b7cd93f1a8a2bf,
    z := 0x5818cf1d9c4364479e5a350f1b48fb4472adc23bd4f4d2bcb723ed69a1a68276,
    t := zero }

/-- The affine point [5]curveGen used by the C9 counterexample. -/
def c9A : curvePoint :=
  { x := 0x8a6ec5753ba604ef8c67b74cd00768826da871f8a8ec814c128975a979d27e16,
    y := 0x37a7cf29db07308c7cf9dd2c5b7865c84c062decc6fcf65e1a2fd69e194c8c76,
    z := one,
    t := one }

/-- C9 counterexample.  Both points are on the curve (in Jacobian form,
Y² = X³ + b Z⁶), neither is at infinity, their X-coordinates agree and
their Y-coordinates differ, yet Add does not return the point at
infinity: s2 - s1 happens to equal 1, so the buggy yEqual test fires and
the code doubles a instead. -/
theorem curvePoint_Add_inverse_points_not_infinity :
    gfpMul c9A.y c9A.y = curvePoint.polynomial c9A.x ∧
    gfpMul c9B.y c9B.y =
      gfpAdd (gfpMul (gfpMul c9B.x c9B.x) c9B.x)
        (gfpMul curveB
          (gfpMul (gfpMul (gfpMul c9B.z c9B.z) (gfpMul c9B.z c9B.z))
            (gfpMul c9B.z c9B.z))) ∧
    (¬ curvePoint.IsInfinity c9A = true) ∧
    (¬ curvePoint.IsInfinity c9B = true) ∧
    gfpMul c9A.x (gfpMul c9B.z c9B.z) = gfpMul c9B.x (gfpMul c9A.z c9A.z) ∧
    gfpMul c9A.y (gfpMul c9B.z (gfpMul c9B.z c9B.z)) ≠
      gfpMul c9B.y (gfpMul c9A.z (gfpMul c9A.z c9A.z)) ∧
    (curvePoint.Add c9A c9B).z ≠ 0 := by
  refine ⟨?_, ?_, ?_, ?_, ?_, ?_, ?_⟩ <;> decide

/-- Every gfpMul result is reduced below the modulus. -/
theorem gfpMul_lt (a b : gfP) : gfpMul a b < bnP := by
  have h : 0 < bnP := by decide
  exact Nat.mod_lt _ h

/-- Subtracting a reduced value from itself gives zero. -/
theorem gfpSub_self (a : gfP) (h : a < bnP) : gfpSub a a = 0 := by
  unfold gfpSub
  rw [Nat.add_sub_cancel' (le_of_lt h), Nat.mod_self]

/-- C9 amended.  For non-infinity inputs with equal X-coordinates and
different Y-coordinates, Add returns a point with Z = 0 (the encoding of
the point at infinity) PROVIDED s2 - s1 is not the field value 1; when
s2 - s1 = 1 the buggy yEqual comparison against one fires instead. -/
theorem curvePoint_Add_opposite_infinity (a b : curvePoint)
    (ha : a.z ≠ 0) (hb : b.z ≠ 0)
    (hx : gfpMul a.x (gfpMul b.z b.z) = gfpMul b.x (gfpMul a.z a.z))
    (hy : gfpMul a.y (gfpMul b.z (gfpMul b.z b.z)) ≠
      gfpMul b.y (gfpMul a.z (gfpMul a.z a.z)))
    (hne : gfpSub (gfpMul b.y (gfpMul a.z (gfpMul a.z a.z)))
      (gfpMul a.y (gfpMul b.z (gfpMul b.z b.z))) ≠ one) :
    (curvePoint.Add a b).z = 0 ∧ (curvePoint.Add a b).IsInfinity = true := by
  have hu : gfpSub (gfpMul b.x (gfpMul a.z a.z)) (gfpMul a.x (gfpMul b.z b.z)) = 0 := by
    rw [← hx]
    exact gfpSub_self _ (gfpMul_lt _ _)
  have hmain : curvePoint.Add a b = curvePoint.addMain a b := by
    unfold curvePoint.Add curvePoint.IsInfinity
    simp [zero, ha, hb]
  have hz : (curvePoint.addMain a b).z = 0 := by
    unfold curvePoint.addMain
    rw [if_neg]
    · show gfpMul
        (gfpSub (gfpSub (gfpMul (gfpAdd a.z b.z) (gfpAdd a.z b.z)) (gfpMul a.z a.z))
          (gfpMul b.z b.z))
        (gfpSub (gfpMul b.x (gfpMul a.z a.z)) (gfpMul a.x (gfpMul b.z b.z))) = 0
      rw [hu]
      simp [gfpMul]
    · rintro ⟨-, h2⟩
      exact hne h2
  rw [hmain]
  exact ⟨hz, by simp [curvePoint.IsInfinity, hz, zero]⟩

/-- C9 amended witness: curveGen and its negation (an affine pair with
equal X and opposite Y, where s2 - s1 = p - 2y is not 1). -/
def negGen : curvePoint :=
  { x := curveGen.x, y := gfpNeg curveGen.y, z := curveGen.z, t := zero }

theorem curvePoint_Add_opposite_infinity_witness :
    (curvePoint.Add curveGen negGen).z = 0 ∧
    (curvePoint.Add curveGen negGen).IsInfinity = true :=
  curvePoint_Add_opposite_infinity curveGen negGen
    (by decide) (by decide) (by decide) (by decide) (by decide)

/-- C8.  MakeAffine leaves a point with Z = 1 unchanged, rewrites a point
with Z = 0 to the canonical infinity encoding (0, 1, 0, 0), and otherwise
replaces (X, Y, Z) by (X/Z², Y/Z³, 1): the result has Z = 1 and its X and
Y, multiplied back by Z² and Z³, give the original coordinates.  The last
case assumes the stored coordinates are reduced and that Fermat inversion
inverts Z (which holds for every nonzero Z because p is prime). -/
theorem curvePoint_MakeAffine_spec (c : curvePoint) :
    (c.z = one → c.MakeAffine = c) ∧
    (c.z = zero → c.MakeAffine = { x := zero, y := one, z := zero, t := zero }) ∧
    (c.z ≠ one → c.z ≠ zero → c.x < bnP → c.y < bnP →
      gfpMul c.z (gfpInvert c.z) = one →
      (c.MakeAffine.z = one ∧
       gfpMul c.MakeAffine.x (gfpMul c.z c.z) = c.x ∧
       gfpMul c.MakeAffine.y (gfpMul c.z (gfpMul c.z c.z)) = c.y)) := by
  refine ⟨?_, ?_, ?_⟩
  · intro h1
    unfold curvePoint.MakeAffine
    rw [if_pos h1]
  · intro h0
    unfold curvePoint.MakeAffine
    have h1 : ¬ c.z = one := by
      rw [h0]; decide
    rw [if_neg h1, if_pos h0, h0]
  · intro h1 h0 hx hy hinv
    have hM : c.MakeAffine =
        { x := gfpMul c.x (gfpMul (gfpInvert c.z) (gfpInvert c.z)),
          y := gfpMul (gfpMul c.y (gfpInvert c.z)) (gfpMul (gfpInvert c.z) (gfpInvert c.z)),
          z := one, t := one } := by
      unfold curvePoint.MakeAffine
      rw [if_neg h1, if_neg h0]
    have hzi : ((c.z : ZMod bnP)) * ((gfpInvert c.z : Nat) : ZMod bnP) = 1 := by
      have hcast := congrArg (fun m : Nat => (m : ZMod bnP)) hinv
      simpa [gfpMul, one, ZMod.natCast_mod] using hcast
    rw [hM]
    refine ⟨rfl, ?_, ?_⟩
    · show gfpMul (gfpMul c.x (gfpMul (gfpInvert c.z) (gfpInvert c.z))) (gfpMul c.z c.z) = c.x
      have hmod :
          gfpMul (gfpMul c.x (gfpMul (gfpInvert c.z) (gfpInvert c.z))) (gfpMul c.z c.z) =
            (c.x * (gfpInvert c.z * gfpInvert c.z) * (c.z * c.z)) % bnP := by
        simp [gfpMul, Nat.mod_mul_mod, Nat.mul_mod_mod]
      rw [hmod]
      have hzm : (c.x * (gfpInvert c.z * gfpInvert c.z) * (c.z * c.z)) % bnP = c.x % bnP := by
        apply (ZMod.natCast_eq_natCast_iff' _ _ _).mp
        push_cast
        rw [show ((c.x : ZMod bnP) * ((gfpInvert c.z : Nat) * (gfpInvert c.z : Nat)) *
            ((c.z : ZMod bnP) * c.z) : ZMod bnP) =
          (c.x : ZMod bnP) * (((c.z : ZMod bnP) * (gfpInvert c.z : Nat)) *
            ((c.z : ZMod bnP) * (gfpInvert c.z : Nat))) from by ring, hzi]
        ring
      rw [hzm, Nat.mod_eq_of_lt hx]
    · show gfpMul (gfpMul (gfpMul c.y (gfpInvert c.z)) (gfpMul (gfpInvert c.z) (gfpInvert c.z)))
        (gfpMul c.z (gfpMul c.z c.z)) = c.y
      have hmod :
          gfpMul (gfpMul (gfpMul c.y (gfpInvert c.z)) (gfpMul (gfpInvert c.z) (gfpInvert c.z)))
            (gfpMul c.z (gfpMul c.z c.z)) =
            (c.y * gfpInvert c.z * (gfpInvert c.z * gfpInvert c.z) * (c.z * (c.z * c.z))) % bnP := by
        simp [gfpMul, Nat.mod_mul_mod, Nat.mul_mod_mod]
      rw [hmod]
      have hzm : (c.y * gfpInvert c.z * (gfpInvert c.z * gfpInvert c.z) *
          (c.z * (c.z * c.z))) % bnP = c.y % bnP := by
        apply (ZMod.natCast_eq_natCast_iff' _ _ _).mp
        push_cast
        rw [show ((c.y : ZMod bnP) * (gfpInvert c.z : Nat) *
            ((gfpInvert c.z : Nat) * (gfpInvert c.z : Nat)) *
            ((c.z : ZMod bnP) * ((c.z : ZMod bnP) * c.z)) : ZMod bnP) =
          (c.y : ZMod bnP) * (((c.z : ZMod bnP) * (gfpInvert c.z : Nat)) *
            (((c.z : ZMod bnP) * (gfpInvert c.z : Nat)) *
              ((c.z : ZMod bnP) * (gfpInvert c.z : Nat)))) from by ring, hzi]
        ring
      rw [hzm, Nat.mod_eq_of_lt hy]

set_option maxHeartbeats 2000000 in
/-- C8 witness: a concrete point with Z = 2 (neither 0 nor 1); the Fermat
inversion hypothesis is checked by evaluation. -/
theorem curvePoint_MakeAffine_spec_witness :
    let c : curvePoint := { x := 12, y := 35, z := 2, t := 0 }
    c.MakeAffine.z = one ∧
    gfpMul c.MakeAffine.x (gfpMul c.z c.z) = c.x ∧
    gfpMul c.MakeAffine.y (gfpMul c.z (gfpMul c.z c.z)) = c.y :=
  (curvePoint_MakeAffine_spec { x := 12, y := 35, z := 2, t := 0 }).2.2
    (by decide) (by decide) (by decide) (by decide) (by decide)

/-- C7.  Table selection: n = 0 gives the point at infinity, n between 1
and 15 gives the stored entry at offset n - 1, and every n at least 16 is
rejected (the source terminates the process; the model returns none). -/
theorem curvePointTable_Select_spec (table : curvePointTable) :
    curvePointTable.Select table 0 = some curvePoint.SetInfinity ∧
    (∀ i : Fin 15, curvePointTable.Select table (i.1 + 1) = some (table i)) ∧
    (∀ n : Nat, 16 ≤ n → curvePointTable.Select table n = none) := by
  refine ⟨?_, ?_, ?_⟩
  · simp [curvePointTable.Select, constantTimeByteEq,
      curvePoint.Select_one, curvePoint.Select_zero]
  · intro i
    fin_cases i <;>
      simp [curvePointTable.Select, constantTimeByteEq,
        curvePoint.Select_one, curvePoint.Select_zero]
  · intro n h
    unfold curvePointTable.Select
    rw [if_pos h]

/-- C7 witness: a concrete constant table, exercised at n = 0, n = 3 and
n = 20. -/
theorem curvePointTable_Select_spec_witness :
    curvePointTable.Select (fun _ => curveGen) 0 = some curvePoint.SetInfinity ∧
    curvePointTable.Select (fun _ => curveGen) 3 = some curveGen ∧
    curvePointTable.Select (fun _ => curveGen) 20 = none := by
  have h := curvePointTable_Select_spec (fun _ => curveGen)
  exact ⟨h.1, h.2.1 ⟨2, by norm_num⟩, h.2.2 20 (by norm_num)⟩

set_option maxHeartbeats 4000000 in
/-- C4.  The claim says Mul(a, k) produces the k-fold group sum [k]a for
every k.  Because Add never takes its doubling branch for equal points
(the yEqual bug), the loop collapses to the Z = 0 point when it adds a to
a point representing a itself, which happens for a = curveGen at
k = r + 2 (r the group order): the result encodes the point at infinity,
while [r+2]curveGen = [2]curveGen is not the point at infinity, as the
nonzero Z of Mul(curveGen, 2) = Double(curveGen) exhibits.  The loop is
evaluated in chunks of 32 iterations through mulLoop_split. -/
theorem curvePoint_Mul_order_plus_two_bug :
    (curvePoint.Mul curveGen (bnR + 2)).z = 0 ∧
    (curvePoint.Mul curveGen 2).z ≠ 0 := by
  constructor
  · show (curvePoint.mulLoop curveGen (bnR + 2)
      (bitLen (bnR + 2) + 1) curvePoint.SetInfinity).z = 0
    have hlen : bitLen (bnR + 2) + 1 = 257 := by decide
    rw [hlen]
    rw [show (257 : Nat) = 225 + 32 from by norm_num, curvePoint.mulLoop_split,
      show (225 + 32 - 1 : Nat) = 256 from by norm_num,
      show curvePoint.mulChunk curveGen (bnR + 2) 256 32 curvePoint.SetInfinity
        = c4State1 from by decide]
    rw [show (225 : Nat) = 193 + 32 from by norm_num, curvePoint.mulLoop_split,
      show (193 + 32 - 1 : Nat) = 224 from by norm_num,
      show curvePoint.mulChunk curveGen (bnR + 2) 224 32 c4State1
        = c4State2 from by decide]
    rw [show (193 : Nat) = 161 + 32 from by norm_num, curvePoint.mulLoop_split,
      show (161 + 32 - 1 : Nat) = 192 from by norm_num,
      show curvePoint.mulChunk curveGen (bnR + 2) 192 32 c4State2
        = c4State3 from by decide]
    rw [show (161 : Nat) = 129 + 32 from by norm_num, curvePoint.mulLoop_split,
      show (129 + 32 - 1 : Nat) = 160 from by norm_num,
      show curvePoint.mulChunk curveGen (bnR + 2) 160 32 c4State3
        = c4State4 from by decide]
    rw [show (129 : Nat) = 97 + 32 from by norm_num, curvePoint.mulLoop_split,
      show (97 + 32 - 1 : Nat) = 128 from by norm_num,
      show curvePoint.mulChunk curveGen (bnR + 2) 128 32 c4State4
        = c4State5 from by decide]
    rw [show (97 : Nat) = 65 + 32 from by norm_num, curvePoint.mulLoop_split,
      show (65 + 32 - 1 : Nat) = 96 from by norm_num,
      show curvePoint.mulChunk curveGen (bnR + 2) 96 32 c4State5
        = c4State6 from by decide]
    rw [show (65 : Nat) = 33 + 32 from by norm_num, curvePoint.mulLoop_split,
      show (33 + 32 - 1 : Nat) = 64 from by norm_num,
      show curvePoint.mulChunk curveGen (bnR + 2) 64 32 c4State6
        = c4State7 from by decide]
    rw [show (33 : Nat) = 1 + 32 from by norm_num, curvePoint.mulLoop_split,
      show (1 + 32 - 1 : Nat) = 32 from by norm_num,
      show curvePoint.mulChunk curveGen (bnR + 2) 32 32 c4State7
        = c4State8 from by decide]
    decide
  · decide

/-- Modelled from the spec: n iterated special (cyclotomic) squarings of
an element of GF(p¹²); the tower arithmetic itself is not part of the
sources, so GF(p¹²) is modelled as an arbitrary commutative monoid in
which SpecialSquare squares its argument. -/
def iterSpecialSquare {M : Type} [CommMonoid M] : M → Nat → M
  | x, 0 => x
  | x, n+1 => iterSpecialSquare (x * x) n

/-- Iterated squaring raises to the power 2^n. -/
theorem iterSpecialSquare_pow {M : Type} [CommMonoid M] :
    ∀ (n : Nat) (a : M), iterSpecialSquare a n = a ^ (2 ^ n) := by
  intro n
  induction n with
  | zero => intro a; simp [iterSpecialSquare]
  | succ n ih =>
      intro a
      show iterSpecialSquare (a * a) n = _
      rw [ih (a * a), show a * a = a ^ 2 from (pow_two a).symm, ← pow_mul]
      rw [show 2 * 2 ^ n = 2 ^ (n + 1) from by rw [pow_succ, Nat.mul_comm]]

/-- Modelled from the spec: a full GF(p¹²) multiplication (Mul or MulNC),
instrumented with the running (multiplication, squaring) counters. -/
def opMul {M : Type} [CommMonoid M] (c : Nat × Nat) (a b : M) : (Nat × Nat) × M :=
  ((c.1 + 1, c.2), a * b)

/-- Modelled from the spec: one special squaring (SpecialSquare or
SpecialSquareNC), instrumented with the counters. -/
def opSpecialSquare {M : Type} [CommMonoid M] (c : Nat × Nat) (a : M) : (Nat × Nat) × M :=
  ((c.1, c.2 + 1), a * a)

/-- Modelled from the spec: SpecialSquares(a, n), n special squarings,
instrumented with the counters. -/
def opSpecialSquares {M : Type} [CommMonoid M] (c : Nat × Nat) (a : M) (n : Nat) :
    (Nat × Nat) × M :=
  ((c.1, c.2 + n), iterSpecialSquare a n)

/-- Translation of gfP12b6.gfP12ExpU: the fixed addition chain, one let
per source line, threading the (multiplications, special squarings)
counters through every operation; returns the counters and the value. -/
def gfP12ExpU {M : Type} [CommMonoid M] (x : M) : (Nat × Nat) × M :=
  let s1 := opSpecialSquare (0, 0) x
  let t2 := s1.2
  let s2 := opSpecialSquare s1.1 t2
  let t1 := s2.2
  let s3 := opMul s2.1 x t1
  let z := s3.2
  let s4 := opMul s3.1 t1 z
  let t0 := s4.2
  let s5 := opMul s4.1 t2 t0
  let t2b := s5.2
  let s6 := opMul s5.1 x t2b
  let t3 := s6.2
  let s7 := opSpecialSquares s6.1 t3 40
  let t3b := s7.2
  let s8 := opMul s7.1 t2b t3b
  let t3c := s8.2
  let s9 := opSpecialSquares s8.1 t3c 7
  let t3d := s9.2
  let s10 := opMul s9.1 t2b t3d
  let t2c := s10.2
  let s11 := opMul s10.1 t1 t2c
  let t1b := s11.2
  let s12 := opSpecialSquares s11.1 t1b 4
  let t1c := s12.2
  let s13 := opMul s12.1 t0 t1c
  let t0b := s13.2
  let s14 := opSpecialSquare s13.1 t0b
  let t0c := s14.2
  let s15 := opMul s14.1 x t0c
  let t0d := s15.2
  let s16 := opSpecialSquares s15.1 t0d 6
  let t0e := s16.2
  let s17 := opMul s16.1 z t0e
  let zb := s17.2
  let s18 := opSpecialSquare s17.1 zb
  (s18.1, s18.2)

/-- C3.  For every element x, gfP12ExpU computes plain exponentiation of
x by the BN parameter u = 0x600000000058F98A, and the chain performs
exactly 10 multiplications and 61 special squarings. -/
theorem gfP12ExpU_spec {M : Type} [CommMonoid M] (x : M) :
    (gfP12ExpU x).2 = x ^ 0x600000000058F98A ∧ (gfP12ExpU x).1 = (10, 61) := by
  refine ⟨?_, rfl⟩
  simp only [gfP12ExpU, opMul, opSpecialSquare, opSpecialSquares, iterSpecialSquare_pow]
  norm_num
  rw [show x * x = x ^ 2 from (pow_two x).symm]
  rw [show x ^ 2 * x ^ 2 = x ^ 4 from by rw [← pow_add]]
  rw [show x * x ^ 4 = x ^ 5 from by rw [mul_comm, ← pow_succ]]
  rw [show x ^ 4 * x ^ 5 = x ^ 9 from by rw [← pow_add]]
  rw [show x ^ 2 * x ^ 9 = x ^ 11 from by rw [← pow_add]]
  rw [show x * x ^ 11 = x ^ 12 from by rw [mul_comm, ← pow_succ]]
  rw [show (x ^ 12) ^ 1099511627776 = x ^ 13194139533312 from by rw [← pow_mul]]
  rw [show x ^ 11 * x ^ 13194139533312 = x ^ 13194139533323 from by rw [← pow_add]]
  rw [show (x ^ 13194139533323) ^ 128 = x ^ 1688849860265344 from by rw [← pow_mul]]
  rw [show x ^ 11 * x ^ 1688849860265344 = x ^ 1688849860265355 from by rw [← pow_add]]
  rw [show x ^ 4 * x ^ 1688849860265355 = x ^ 1688849860265359 from by rw [← pow_add]]
  rw [show (x ^ 1688849860265359) ^ 16 = x ^ 27021597764245744 from by rw [← pow_mul]]
  rw [show x ^ 9 * x ^ 27021597764245744 = x ^ 27021597764245753 from by rw [← pow_add]]
  rw [show x ^ 27021597764245753 * x ^ 27021597764245753 = x ^ 54043195528491506 from by rw [← pow_add]]
  rw [show x * x ^ 54043195528491506 = x ^ 54043195528491507 from by rw [mul_comm, ← pow_succ]]
  rw [show (x ^ 54043195528491507) ^ 64 = x ^ 3458764513823456448 from by rw [← pow_mul]]
  rw [show x ^ 5 * x ^ 3458764513823456448 = x ^ 3458764513823456453 from by rw [← pow_add]]
  rw [show x ^ 3458764513823456453 * x ^ 3458764513823456453 = x ^ 6917529027646912906 from by rw [← pow_add]]

/-- C3 witness at the commutative monoid of natural numbers under
multiplication, evaluated at 1. -/
theorem gfP12ExpU_spec_witness :
    (gfP12ExpU (1 : Nat)).2 = 1 ∧ (gfP12ExpU (1 : Nat)).1 = (10, 61) := by
  have h := gfP12ExpU_spec (1 : Nat)
  simpa using h

/-- Byte reversal of a 32-bit word, the effect of the flip_mask PSHUFB
(LE to BE conversion within each dword lane). -/
def rev32 (w : Nat) : Nat :=
  ((w % 256) <<< 24) ||| (((w >>> 8) % 256) <<< 16) |||
    (((w >>> 16) % 256) <<< 8) ||| ((w >>> 24) % 256)

/-- Left rotation of a 32-bit word, the effect of the r08/r16/r24 byte
shuffles on dword lanes holding values below 2^32. -/
def rotl32 (x n : Nat) : Nat := ((x <<< n) % 4294967296) ||| (x >>> (32 - n))

/-- Modelled from the spec: the byte-wise S-box substitution applied to
the four bytes of a dword lane.  The sources realize the byte map through
an affine-wrapped AES SubBytes (AESENCLAST between two nibble-table
affine transforms), whose table is not part of the sources, so the byte
map is an arbitrary function from bytes to bytes here. -/
def sm4Tau (sbox : Fin 256 → Fin 256) (w : Nat) : Nat :=
  ((sbox ⟨(w >>> 24) % 256, by omega⟩).1 <<< 24) |||
    ((sbox ⟨(w >>> 16) % 256, by omega⟩).1 <<< 16) |||
    ((sbox ⟨(w >>> 8) % 256, by omega⟩).1 <<< 8) |||
    (sbox ⟨w % 256, by omega⟩).1

/-- The S-box output is a 32-bit word. -/
theorem sm4Tau_lt (sbox : Fin 256 → Fin 256) (w : Nat) : sm4Tau sbox w < 4294967296 := by
  unfold sm4Tau
  have hb : ∀ (b : Fin 256) (k : Nat), k ≤ 24 → (b.1 <<< k) < 4294967296 := by
    intro b k hk
    have := b.isLt
    calc b.1 <<< k = b.1 * 2 ^ k := by rw [Nat.shiftLeft_eq]
    _ ≤ 255 * 2 ^ 24 := by
        apply Nat.mul_le_mul (by omega)
        exact Nat.pow_le_pow_right (by norm_num) hk
    _ < 4294967296 := by norm_num
  have h32 : (4294967296 : Nat) = 2 ^ 32 := by norm_num
  rw [h32]
  apply Nat.or_lt_two_pow
  apply Nat.or_lt_two_pow
  apply Nat.or_lt_two_pow
  all_goals rw [← h32]
  · exact hb _ 24 (by norm_num)
  · exact hb _ 16 (by norm_num)
  · exact hb _ 8 (by norm_num)
  · have := (sbox ⟨w % 256, by omega⟩).isLt
    omega

/-- Translation of the linear layer of SM4_TAO_L1 (the SSE sequence):
y = x xor rotl8(x) xor rotl16(x), y rotated left by 2 through
PSLLL/PSRLL/POR, then x xor y xor rotl24(x). -/
def sm4L1 (x : Nat) : Nat :=
  let y1 := rotl32 x 8 ^^^ x
  let y2 := y1 ^^^ rotl32 x 16
  let y3 := (y2 >>> 30) ||| ((y2 <<< 2) % 4294967296)
  (x ^^^ y3) ^^^ rotl32 x 24

/-- Translation of the linear layer of AVX2_SM4_TAO_L1: identical to the
SSE sequence except that the two halves of the rotation by 2 are combined
with VPXOR instead of POR, and the final rotl24 term is xored from the
left. -/
def sm4L1Avx2 (x : Nat) : Nat :=
  let y1 := rotl32 x 8 ^^^ x
  let y2 := y1 ^^^ rotl32 x 16
  let y3 := (y2 >>> 30) ^^^ ((y2 <<< 2) % 4294967296)
  rotl32 x 24 ^^^ (x ^^^ y3)

/-- Or and xor agree on operands without common bits. -/
theorem lor_eq_xor_of_land_zero (a b : Nat) (h : a &&& b = 0) : a ||| b = a ^^^ b := by
  apply Nat.eq_of_testBit_eq
  intro i
  have hi : (a &&& b).testBit i = Nat.testBit 0 i := by rw [h]
  rw [Nat.testBit_and] at hi
  simp only [Nat.zero_testBit] at hi
  rw [Nat.testBit_or, Nat.testBit_xor]
  cases ha : a.testBit i <;> cases hb : b.testBit i <;> simp_all

/-- The two halves of a rotation by 2 of a 32-bit word have no common
bits: the high part is below 4 and the low part is a multiple of 4. -/
theorem rot2_halves_disjoint (y : Nat) (hy : y < 4294967296) :
    (y >>> 30) &&& ((y <<< 2) % 4294967296) = 0 := by
  apply Nat.eq_of_testBit_eq
  intro i
  simp only [Nat.testBit_and, Nat.zero_testBit]
  rcases Nat.lt_or_ge i 2 with hi | hi
  · have h1 : ((y <<< 2) % 4294967296).testBit i = false := by
      rw [show (4294967296 : Nat) = 2 ^ 32 from by norm_num, Nat.testBit_mod_two_pow,
        Nat.testBit_shiftLeft]
      have h2 : ¬ 2 ≤ i := by omega
      simp [h2]
    rw [h1]
    simp
  · have hlt : y >>> 30 < 2 ^ i := by
      have h1 : y >>> 30 < 4 := by
        rw [Nat.shiftRight_eq_div_pow]
        omega
      have h2 : (4 : Nat) ≤ 2 ^ i := by
        calc (4 : Nat) = 2 ^ 2 := by norm_num
        _ ≤ 2 ^ i := Nat.pow_le_pow_right (by norm_num) hi
      omega
    rw [Nat.testBit_lt_two_pow hlt]
    simp

/-- A rotation of a 32-bit word is a 32-bit word. -/
theorem rotl32_lt (x n : Nat) (hx : x < 4294967296) (hn : 1 ≤ n) (hn2 : n ≤ 31) :
    rotl32 x n < 4294967296 := by
  unfold rotl32
  rw [show (4294967296 : Nat) = 2 ^ 32 from by norm_num] at hx ⊢
  apply Nat.or_lt_two_pow
  · exact Nat.mod_lt _ (by norm_num)
  · rw [Nat.shiftRight_eq_div_pow]
    have h1 : 2 ^ 1 ≤ 2 ^ (32 - n) := Nat.pow_le_pow_right (by norm_num) (by omega)
    have h2 : x / 2 ^ (32 - n) < 2 ^ 32 := by
      apply Nat.lt_of_le_of_lt (Nat.div_le_self _ _) hx
    omega

/-- The AVX2 and SSE linear layers agree on 32-bit inputs. -/
theorem sm4L1Avx2_eq (x : Nat) (hx : x < 4294967296) : sm4L1Avx2 x = sm4L1 x := by
  unfold sm4L1 sm4L1Avx2
  dsimp only
  have hy2 : (rotl32 x 8 ^^^ x) ^^^ rotl32 x 16 < 4294967296 := by
    rw [show (4294967296 : Nat) = 2 ^ 32 from by norm_num] at hx ⊢
    apply Nat.xor_lt_two_pow
    apply Nat.xor_lt_two_pow
    · rw [← show (4294967296 : Nat) = 2 ^ 32 from by norm_num] at hx ⊢
      exact rotl32_lt x 8 hx (by norm_num) (by norm_num)
    · exact hx
    · rw [← show (4294967296 : Nat) = 2 ^ 32 from by norm_num] at hx ⊢
      exact rotl32_lt x 16 hx (by norm_num) (by norm_num)
  rw [← lor_eq_xor_of_land_zero _ _ (rot2_halves_disjoint _ hy2)]
  rw [Nat.xor_comm (rotl32 x 24)]

/-- The SSE byte-substitution-plus-linear-layer T of the encryption
rounds (SM4_TAO_L1). -/
def sm4T (sbox : Fin 256 → Fin 256) (w : Nat) : Nat := sm4L1 (sm4Tau sbox w)

/-- The AVX2 variant of T (AVX2_SM4_TAO_L1). -/
def sm4TAvx2 (sbox : Fin 256 → Fin 256) (w : Nat) : Nat := sm4L1Avx2 (sm4Tau sbox w)

/-- The AVX2 and SSE T transforms agree on every input, because the
substitution step always produces a 32-bit word. -/
theorem sm4TAvx2_eq (sbox : Fin 256 → Fin 256) (w : Nat) :
    sm4TAvx2 sbox w = sm4T sbox w :=
  sm4L1Avx2_eq _ (sm4Tau_lt sbox w)

/-- The four working words X[i], X[i+1], X[i+2], X[i+3] held in the
registers t0..t3. -/
structure sm4Words where
  t0 : Nat
  t1 : Nat
  t2 : Nat
  t3 : Nat
deriving DecidableEq

/-- One iteration of the encryption loop: the four SM4_ROUND macro calls
with their register rotation, parametrised by the transform tao (the SSE
or the AVX2 T).  Each round xors the round key and three working words,
applies tao, and xors the result into the fourth word. -/
def sm4Quad (tao : Nat → Nat) (k0 k1 k2 k3 : Nat) (s : sm4Words) : sm4Words :=
  let a := s.t0 ^^^ tao (((k0 ^^^ s.t1) ^^^ s.t2) ^^^ s.t3)
  let b := s.t1 ^^^ tao (((k1 ^^^ s.t2) ^^^ s.t3) ^^^ a)
  let c := s.t2 ^^^ tao (((k2 ^^^ s.t3) ^^^ a) ^^^ b)
  let d := s.t3 ^^^ tao (((k3 ^^^ a) ^^^ b) ^^^ c)
  { t0 := a, t1 := b, t2 := c, t3 := d }

/-- The encryption loop: fuel-many iterations of four rounds, reading
round keys from index i upward. -/
def sm4Rounds (tao : Nat → Nat) (rk : Nat → Nat) : Nat → Nat → sm4Words → sm4Words
  | _, 0, s => s
  | i, f+1, s => sm4Rounds tao rk (i + 4) f (sm4Quad tao (rk i) (rk (i + 1)) (rk (i + 2)) (rk (i + 3)) s)

/-- Translation of encryptBlockAsm: load the four dwords big-endian, run
32 rounds, store the flipped words in the order t3, t2, t1, t0 (the
MOVUPS of t3 followed by the three dword stores). -/
def encryptBlockAsm (sbox : Fin 256 → Fin 256) (rk : Nat → Nat) (src : Fin 4 → Nat) :
    Fin 4 → Nat :=
  let s := sm4Rounds (sm4T sbox) rk 0 8
    { t0 := rev32 (src 0), t1 := rev32 (src 1), t2 := rev32 (src 2), t3 := rev32 (src 3) }
  ![rev32 s.t3, rev32 s.t2, rev32 s.t1, rev32 s.t0]

/-- Four (or eight) SIMD lanes, one block per lane, as lane-indexed
registers. -/
structure sm4Lanes (B : Type) where
  r0 : B → Nat
  r1 : B → Nat
  r2 : B → Nat
  r3 : B → Nat

/-- The words of one lane. -/
def sm4Lanes.proj {B : Type} (s : sm4Lanes B) (b : B) : sm4Words :=
  { t0 := s.r0 b, t1 := s.r1 b, t2 := s.r2 b, t3 := s.r3 b }

/-- One iteration of the SIMD encryption loop: the same four rounds on
every lane, with the round key broadcast (PSHUFD or VPBROADCASTD). -/
def sm4QuadV {B : Type} (tao : Nat → Nat) (k0 k1 k2 k3 : Nat) (s : sm4Lanes B) : sm4Lanes B :=
  let a := fun b => s.r0 b ^^^ tao (((k0 ^^^ s.r1 b) ^^^ s.r2 b) ^^^ s.r3 b)
  let b1 := fun b => s.r1 b ^^^ tao (((k1 ^^^ s.r2 b) ^^^ s.r3 b) ^^^ a b)
  let c := fun b => s.r2 b ^^^ tao (((k2 ^^^ s.r3 b) ^^^ a b) ^^^ b1 b)
  let d := fun b => s.r3 b ^^^ tao (((k3 ^^^ a b) ^^^ b1 b) ^^^ c b)
  { r0 := a, r1 := b1, r2 := c, r3 := d }

/-- The SIMD encryption loop. -/
def sm4RoundsV {B : Type} (tao : Nat → Nat) (rk : Nat → Nat) :
    Nat → Nat → sm4Lanes B → sm4Lanes B
  | _, 0, s => s
  | i, f+1, s =>
      sm4RoundsV tao rk (i + 4) f (sm4QuadV tao (rk i) (rk (i + 1)) (rk (i + 2)) (rk (i + 3)) s)

/-- Lanes evolve independently: projecting any lane of the SIMD loop
gives the scalar loop on that lane's words. -/
theorem sm4RoundsV_proj {B : Type} (tao : Nat → Nat) (rk : Nat → Nat) :
    ∀ (f i : Nat) (s : sm4Lanes B) (b : B),
      (sm4RoundsV tao rk i f s).proj b = sm4Rounds tao rk i f (s.proj b) := by
  intro f
  induction f with
  | zero => intro i s b; rfl
  | succ f ih =>
      intro i s b
      show (sm4RoundsV tao rk (i + 4) f _).proj b = sm4Rounds tao rk (i + 4) f _
      rw [ih]
      rfl

/-- Projection corollaries of the lane-independence lemma, one per
register, stated in the form the store proofs rewrite with. -/
theorem sm4RoundsV_r0 {B : Type} (tao rk : Nat → Nat) (f i : Nat) (s : sm4Lanes B) (b : B) :
    (sm4RoundsV tao rk i f s).r0 b = (sm4Rounds tao rk i f (s.proj b)).t0 :=
  congrArg sm4Words.t0 (sm4RoundsV_proj tao rk f i s b)

theorem sm4RoundsV_r1 {B : Type} (tao rk : Nat → Nat) (f i : Nat) (s : sm4Lanes B) (b : B) :
    (sm4RoundsV tao rk i f s).r1 b = (sm4Rounds tao rk i f (s.proj b)).t1 :=
  congrArg sm4Words.t1 (sm4RoundsV_proj tao rk f i s b)

theorem sm4RoundsV_r2 {B : Type} (tao rk : Nat → Nat) (f i : Nat) (s : sm4Lanes B) (b : B) :
    (sm4RoundsV tao rk i f s).r2 b = (sm4Rounds tao rk i f (s.proj b)).t2 :=
  congrArg sm4Words.t2 (sm4RoundsV_proj tao rk f i s b)

theorem sm4RoundsV_r3 {B : Type} (tao rk : Nat → Nat) (f i : Nat) (s : sm4Lanes B) (b : B) :
    (sm4RoundsV tao rk i f s).r3 b = (sm4Rounds tao rk i f (s.proj b)).t3 :=
  congrArg sm4Words.t3 (sm4RoundsV_proj tao rk f i s b)

/-- The three groups of MOVL loads and stores at the end of the
non-AVX2 encryptBlocksAsm, acting on the 16-dword output buffer (dword j
is byte offset 4j): loads into R8..R13 followed by stores, three times,
exactly in source order. -/
def sm4StoreFixup (mem0 : Fin 16 → Nat) : Fin 16 → Nat :=
  let a1 := mem0 1
  let a2 := mem0 2
  let a3 := mem0 3
  let a4 := mem0 4
  let a8 := mem0 8
  let a12 := mem0 12
  let mem1 :=
    Function.update (Function.update (Function.update (Function.update
      (Function.update (Function.update mem0 1 a4) 2 a8) 3 a12) 4 a1) 8 a2) 12 a3
  let b6 := mem1 6
  let b7 := mem1 7
  let b9 := mem1 9
  let b13 := mem1 13
  let mem2 :=
    Function.update (Function.update (Function.update (Function.update mem1 6 b9) 7 b13) 9 b6) 13 b7
  let c11 := mem2 11
  let c14 := mem2 14
  Function.update (Function.update mem2 11 c14) 14 c11

/-- The net effect of the store fixup: dword 4b + w of the result is
dword 4w + b of the buffer (the transpose that moves word w of block b,
stored in row w of the register dump, into place). -/
theorem sm4StoreFixup_apply (m : Fin 16 → Nat) (b w : Fin 4) :
    sm4StoreFixup m ⟨4 * b.1 + w.1, by have := b.isLt; have := w.isLt; omega⟩ =
      m ⟨4 * w.1 + b.1, by have := b.isLt; have := w.isLt; omega⟩ := by
  fin_cases b <;> fin_cases w <;>
    simp [sm4StoreFixup, Function.update_apply]

/-- Translation of the non-AVX2 path of encryptBlocksAsm: the transposed
PINSRD loads of four 16-byte blocks (register t_k holds word k of every
block, big-endian), 32 rounds on all four lanes, the four MOVUPS stores
(t3 to dwords 0-3, t2 to 4-7, t1 to 8-11, t0 to 12-15), and the store
fixup that permutes the buffer into block order. -/
def encryptBlocksAsm (sbox : Fin 256 → Fin 256) (rk : Nat → Nat) (src : Fin 16 → Nat) :
    Fin 16 → Nat :=
  let V := sm4RoundsV (sm4T sbox) rk 0 8
    { r0 := fun b : Fin 4 => rev32 (src ⟨4 * b.1, by have := b.isLt; omega⟩),
      r1 := fun b : Fin 4 => rev32 (src ⟨4 * b.1 + 1, by have := b.isLt; omega⟩),
      r2 := fun b : Fin 4 => rev32 (src ⟨4 * b.1 + 2, by have := b.isLt; omega⟩),
      r3 := fun b : Fin 4 => rev32 (src ⟨4 * b.1 + 3, by have := b.isLt; omega⟩) }
  sm4StoreFixup (fun j =>
    if h4 : j.1 < 4 then rev32 (V.r3 ⟨j.1, h4⟩)
    else if h8 : j.1 < 8 then rev32 (V.r2 ⟨j.1 - 4, by omega⟩)
    else if h12 : j.1 < 12 then rev32 (V.r1 ⟨j.1 - 8, by omega⟩)
    else rev32 (V.r0 ⟨j.1 - 12, by have := j.isLt; omega⟩))

/-- The non-AVX2 four-block path produces, in each 16-byte quarter of the
output, exactly the single-block output of the corresponding input
block. -/
theorem encryptBlocksAsm_concat (sbox : Fin 256 → Fin 256) (rk : Nat → Nat)
    (src : Fin 16 → Nat) (b w : Fin 4) :
    encryptBlocksAsm sbox rk src ⟨4 * b.1 + w.1, by have := b.isLt; have := w.isLt; omega⟩ =
      encryptBlockAsm sbox rk
        (fun k => src ⟨4 * b.1 + k.1, by have := b.isLt; have := k.isLt; omega⟩) w := by
  show sm4StoreFixup _ _ = _
  rw [sm4StoreFixup_apply]
  fin_cases b <;> fin_cases w <;>
    (simp [encryptBlockAsm, sm4RoundsV_r0, sm4RoundsV_r1, sm4RoundsV_r2, sm4RoundsV_r3,
      sm4Lanes.proj]
     try rfl)

/-- VPUNPCKLDQ on 256-bit registers of eight dword lanes: interleave the
low dword pairs of each 128-bit half. -/
def vpunpckldq (a b : Fin 8 → Nat) : Fin 8 → Nat := fun i =>
  if i.1 = 0 then a 0 else if i.1 = 1 then b 0
  else if i.1 = 2 then a 1 else if i.1 = 3 then b 1
  else if i.1 = 4 then a 4 else if i.1 = 5 then b 4
  else if i.1 = 6 then a 5 else b 5

/-- VPUNPCKHDQ: interleave the high dword pairs of each 128-bit half. -/
def vpunpckhdq (a b : Fin 8 → Nat) : Fin 8 → Nat := fun i =>
  if i.1 = 0 then a 2 else if i.1 = 1 then b 2
  else if i.1 = 2 then a 3 else if i.1 = 3 then b 3
  else if i.1 = 4 then a 6 else if i.1 = 5 then b 6
  else if i.1 = 6 then a 7 else b 7

/-- VPUNPCKLQDQ: interleave the low qwords of each 128-bit half. -/
def vpunpcklqdq (a b : Fin 8 → Nat) : Fin 8 → Nat := fun i =>
  if i.1 = 0 then a 0 else if i.1 = 1 then a 1
  else if i.1 = 2 then b 0 else if i.1 = 3 then b 1
  else if i.1 = 4 then a 4 else if i.1 = 5 then a 5
  else if i.1 = 6 then b 4 else b 5

/-- VPUNPCKHQDQ: interleave the high qwords of each 128-bit half. -/
def vpunpckhqdq (a b : Fin 8 → Nat) : Fin 8 → Nat := fun i =>
  if i.1 = 0 then a 2 else if i.1 = 1 then a 3
  else if i.1 = 2 then b 2 else if i.1 = 3 then b 3
  else if i.1 = 4 then a 6 else if i.1 = 5 then a 7
  else if i.1 = 6 then b 6 else b 7

/-- Translation of TRANSPOSE_MATRIX: the six unpack steps, yielding the
four word-registers (one word position across the eight lanes). -/
def transposeMatrix (r0 r1 r2 r3 : Fin 8 → Nat) : sm4Lanes (Fin 8) :=
  let xtmp2 := vpunpckhdq r0 r1
  let r0a := vpunpckldq r0 r1
  let xtmp1 := vpunpckldq r2 r3
  let r2a := vpunpckhdq r2 r3
  { r0 := vpunpcklqdq r0a xtmp1,
    r1 := vpunpckhqdq r0a xtmp1,
    r2 := vpunpcklqdq xtmp2 r2a,
    r3 := vpunpckhqdq xtmp2 r2a }

/-- The flip_mask2 VPSHUFB: a full byte reversal of each 128-bit half,
which reverses the dword order within each half and the bytes within
each dword. -/
def flip2 (r : Fin 8 → Nat) : Fin 8 → Nat := fun i =>
  if i.1 = 0 then rev32 (r 3) else if i.1 = 1 then rev32 (r 2)
  else if i.1 = 2 then rev32 (r 1) else if i.1 = 3 then rev32 (r 0)
  else if i.1 = 4 then rev32 (r 7) else if i.1 = 5 then rev32 (r 6)
  else if i.1 = 6 then rev32 (r 5) else rev32 (r 4)

/-- The effect of TRANSPOSE_MATRIX on each output register, lane by
lane. -/
theorem transposeMatrix_r0_apply (r0 r1 r2 r3 : Fin 8 → Nat) (l : Fin 8) :
    (transposeMatrix r0 r1 r2 r3).r0 l =
      (if l.1 = 0 then r0 0 else if l.1 = 1 then r1 0
       else if l.1 = 2 then r2 0 else if l.1 = 3 then r3 0
       else if l.1 = 4 then r0 4 else if l.1 = 5 then r1 4
       else if l.1 = 6 then r2 4 else r3 4) := by
  fin_cases l <;> rfl

theorem transposeMatrix_r1_apply (r0 r1 r2 r3 : Fin 8 → Nat) (l : Fin 8) :
    (transposeMatrix r0 r1 r2 r3).r1 l =
      (if l.1 = 0 then r0 1 else if l.1 = 1 then r1 1
       else if l.1 = 2 then r2 1 else if l.1 = 3 then r3 1
       else if l.1 = 4 then r0 5 else if l.1 = 5 then r1 5
       else if l.1 = 6 then r2 5 else r3 5) := by
  fin_cases l <;> rfl

theorem transposeMatrix_r2_apply (r0 r1 r2 r3 : Fin 8 → Nat) (l : Fin 8) :
    (transposeMatrix r0 r1 r2 r3).r2 l =
      (if l.1 = 0 then r0 2 else if l.1 = 1 then r1 2
       else if l.1 = 2 then r2 2 else if l.1 = 3 then r3 2
       else if l.1 = 4 then r0 6 else if l.1 = 5 then r1 6
       else if l.1 = 6 then r2 6 else r3 6) := by
  fin_cases l <;> rfl

theorem transposeMatrix_r3_apply (r0 r1 r2 r3 : Fin 8 → Nat) (l : Fin 8) :
    (transposeMatrix r0 r1 r2 r3).r3 l =
      (if l.1 = 0 then r0 3 else if l.1 = 1 then r1 3
       else if l.1 = 2 then r2 3 else if l.1 = 3 then r3 3
       else if l.1 = 4 then r0 7 else if l.1 = 5 then r1 7
       else if l.1 = 6 then r2 7 else r3 7) := by
  fin_cases l <;> rfl

/-- The four flipped VMOVDQU loads of the AVX2 path followed by
TRANSPOSE_MATRIX. -/
def avx2Load (src : Fin 32 → Nat) : sm4Lanes (Fin 8) :=
  transposeMatrix
    (fun j : Fin 8 => rev32 (src ⟨j.1, by have := j.isLt; omega⟩))
    (fun j : Fin 8 => rev32 (src ⟨8 + j.1, by have := j.isLt; omega⟩))
    (fun j : Fin 8 => rev32 (src ⟨16 + j.1, by have := j.isLt; omega⟩))
    (fun j : Fin 8 => rev32 (src ⟨24 + j.1, by have := j.isLt; omega⟩))

/-- The flip_mask2 shuffle of the four output registers followed by the
four VMOVDQU stores of the AVX2 path. -/
def avx2Store (O : sm4Lanes (Fin 8)) : Fin 32 → Nat := fun i =>
  if h8 : i.1 < 8 then flip2 O.r0 ⟨i.1, h8⟩
  else if h16 : i.1 < 16 then flip2 O.r1 ⟨i.1 - 8, by omega⟩
  else if h24 : i.1 < 24 then flip2 O.r2 ⟨i.1 - 16, by omega⟩
  else flip2 O.r3 ⟨i.1 - 24, by have := i.isLt; omega⟩

/-- Translation of the AVX2 path of encryptBlocksAsm: the four VMOVDQU
loads of eight 16-byte blocks with the byte-flip, TRANSPOSE_MATRIX, 32
rounds on all eight lanes with the AVX2 transform, the inverse
TRANSPOSE_MATRIX, the flip_mask2 shuffle, and the four VMOVDQU stores. -/
def encryptBlocksAsmAvx2 (sbox : Fin 256 → Fin 256) (rk : Nat → Nat) (src : Fin 32 → Nat) :
    Fin 32 → Nat :=
  let V := sm4RoundsV (sm4TAvx2 sbox) rk 0 8 (avx2Load src)
  avx2Store (transposeMatrix V.r0 V.r1 V.r2 V.r3)

/-- The AVX2 eight-block path produces, in each 16-byte eighth of the
output, exactly the single-block output of the corresponding input
block. -/
theorem encryptBlocksAsmAvx2_concat (sbox : Fin 256 → Fin 256) (rk : Nat → Nat)
    (src : Fin 32 → Nat) (b : Fin 8) (w : Fin 4) :
    encryptBlocksAsmAvx2 sbox rk src ⟨4 * b.1 + w.1, by have := b.isLt; have := w.isLt; omega⟩ =
      encryptBlockAsm sbox rk
        (fun k => src ⟨4 * b.1 + k.1, by have := b.isLt; have := k.isLt; omega⟩) w := by
  have htao : sm4TAvx2 sbox = sm4T sbox := funext (sm4TAvx2_eq sbox)
  fin_cases b <;> fin_cases w <;>
    (simp only [encryptBlocksAsmAvx2, htao]
     simp [avx2Store, flip2,
       transposeMatrix_r0_apply, transposeMatrix_r1_apply,
       transposeMatrix_r2_apply, transposeMatrix_r3_apply,
       sm4RoundsV_r0, sm4RoundsV_r1, sm4RoundsV_r2, sm4RoundsV_r3,
       sm4Lanes.proj, avx2Load, encryptBlockAsm]
     try rfl)

/-- C2.  For every byte substitution, every round-key array and every
input, the four-block path and the AVX2 eight-block path of
encryptBlocksAsm write, into each 16-byte slice of the destination,
exactly the bytes encryptBlockAsm produces for the corresponding source
block with the same round keys. -/
theorem encryptBlocksAsm_parallel_eq_scalar (sbox : Fin 256 → Fin 256) (rk : Nat → Nat) :
    (∀ (src : Fin 16 → Nat) (b w : Fin 4),
      encryptBlocksAsm sbox rk src ⟨4 * b.1 + w.1, by have := b.isLt; have := w.isLt; omega⟩ =
        encryptBlockAsm sbox rk
          (fun k => src ⟨4 * b.1 + k.1, by have := b.isLt; have := k.isLt; omega⟩) w) ∧
    (∀ (src : Fin 32 → Nat) (b : Fin 8) (w : Fin 4),
      encryptBlocksAsmAvx2 sbox rk src ⟨4 * b.1 + w.1, by have := b.isLt; have := w.isLt; omega⟩ =
        encryptBlockAsm sbox rk
          (fun k => src ⟨4 * b.1 + k.1, by have := b.isLt; have := k.isLt; omega⟩) w) :=
  ⟨fun src b w => encryptBlocksAsm_concat sbox rk src b w,
   fun src b w => encryptBlocksAsmAvx2_concat sbox rk src b w⟩

/-- Translation of the linear layer of SM4_TAO_L2 (key schedule):
x xor rotl13(x) xor rotl23(x), built from the PSLLL/PSRLL/POR shift
pairs exactly as the source computes them. -/
def sm4L2 (x : Nat) : Nat :=
  let r13 := (x >>> 19) ||| ((x <<< 13) % 4294967296)
  let r23 := (x >>> 9) ||| ((((x <<< 13) % 4294967296) <<< 10) % 4294967296)
  x ^^^ (r13 ^^^ r23)

/-- The key-schedule transform: byte-wise S-box then L2. -/
def sm4Tp (sbox : Fin 256 → Fin 256) (w : Nat) : Nat := sm4L2 (sm4Tau sbox w)

/-- The state of the key expansion: the four working words and the two
output buffers (dword-indexed memories behind the enc and dec
pointers). -/
structure sm4KeyState where
  t0 : Nat
  t1 : Nat
  t2 : Nat
  t3 : Nat
  enc : Nat → Nat
  dec : Nat → Nat

/-- One iteration of the expandKeyAsm loop: four SM4_EXPANDKEY_ROUND
macro calls.  At loop iteration j (CX = 16j, SI = 112 - 16j), round
index idx stores its word to enc dword (idx*4 + 16j)/4 and to dec dword
((12 - idx*4) + (112 - 16j))/4. -/
def sm4KeyQuad (sbox : Fin 256 → Fin 256) (ck : Nat → Nat) (j : Nat) (st : sm4KeyState) :
    sm4KeyState :=
  let a := st.t0 ^^^ sm4Tp sbox (((ck (4 * j) ^^^ st.t1) ^^^ st.t2) ^^^ st.t3)
  let encA := Function.update st.enc ((0 * 4 + 16 * j) / 4) a
  let decA := Function.update st.dec (((12 - 0 * 4) + (112 - 16 * j)) / 4) a
  let b := st.t1 ^^^ sm4Tp sbox (((ck (4 * j + 1) ^^^ st.t2) ^^^ st.t3) ^^^ a)
  let encB := Function.update encA ((1 * 4 + 16 * j) / 4) b
  let decB := Function.update decA (((12 - 1 * 4) + (112 - 16 * j)) / 4) b
  let c := st.t2 ^^^ sm4Tp sbox (((ck (4 * j + 2) ^^^ st.t3) ^^^ a) ^^^ b)
  let encC := Function.update encB ((2 * 4 + 16 * j) / 4) c
  let decC := Function.update decB (((12 - 2 * 4) + (112 - 16 * j)) / 4) c
  let d := st.t3 ^^^ sm4Tp sbox (((ck (4 * j + 3) ^^^ a) ^^^ b) ^^^ c)
  let encD := Function.update encC ((3 * 4 + 16 * j) / 4) d
  let decD := Function.update decC (((12 - 3 * 4) + (112 - 16 * j)) / 4) d
  { t0 := a, t1 := b, t2 := c, t3 := d, enc := encD, dec := decD }

/-- The key-expansion loop, fuel-many iterations starting at loop
counter j. -/
def sm4KeyRounds (sbox : Fin 256 → Fin 256) (ck : Nat → Nat) :
    Nat → Nat → sm4KeyState → sm4KeyState
  | _, 0, st => st
  | j, f+1, st => sm4KeyRounds sbox ck (j + 1) f (sm4KeyQuad sbox ck j st)

/-- Translation of expandKeyAsm: load the user key big-endian, xor the
FK constants (the fk_mask dwords), run the eight loop iterations, and
return the enc and dec buffers. -/
def expandKeyAsm (sbox : Fin 256 → Fin 256) (mk : Fin 4 → Nat) (ck : Nat → Nat) :
    (Nat → Nat) × (Nat → Nat) :=
  let st := sm4KeyRounds sbox ck 0 8
    { t0 := rev32 (mk 0) ^^^ 0xa3b1bac6,
      t1 := rev32 (mk 1) ^^^ 0x56aa3350,
      t2 := rev32 (mk 2) ^^^ 0x677d9197,
      t3 := rev32 (mk 3) ^^^ 0xb27022dc,
      enc := fun _ => 0,
      dec := fun _ => 0 }
  (st.enc, st.dec)

/-- Later loop iterations do not touch enc entries below their starting
index. -/
theorem sm4KeyRounds_enc_frame (sbox : Fin 256 → Fin 256) (ck : Nat → Nat) :
    ∀ (f j : Nat) (st : sm4KeyState) (m : Nat), m < 4 * j →
      (sm4KeyRounds sbox ck j f st).enc m = st.enc m := by
  intro f
  induction f with
  | zero => intro j st m _; rfl
  | succ f ih =>
      intro j st m hm
      show (sm4KeyRounds sbox ck (j + 1) f (sm4KeyQuad sbox ck j st)).enc m = st.enc m
      rw [ih (j + 1) _ m (by omega)]
      simp only [sm4KeyQuad]
      rw [Function.update_noteq (by omega), Function.update_noteq (by omega),
        Function.update_noteq (by omega), Function.update_noteq (by omega)]

/-- Later loop iterations (with j + f at most 8) do not touch dec
entries above their mirror range: every dec store of iteration j' has
index 31 - 4j' - idx, so any m with m + 4j at least 32 is preserved. -/
theorem sm4KeyRounds_dec_frame (sbox : Fin 256 → Fin 256) (ck : Nat → Nat) :
    ∀ (f j : Nat) (st : sm4KeyState) (m : Nat), j + f ≤ 8 → 32 ≤ m + 4 * j →
      (sm4KeyRounds sbox ck j f st).dec m = st.dec m := by
  intro f
  induction f with
  | zero => intro j st m _ _; rfl
  | succ f ih =>
      intro j st m hj hm
      show (sm4KeyRounds sbox ck (j + 1) f (sm4KeyQuad sbox ck j st)).dec m = st.dec m
      rw [ih (j + 1) _ m (by omega) (by omega)]
      simp only [sm4KeyQuad]
      rw [Function.update_noteq (by omega), Function.update_noteq (by omega),
        Function.update_noteq (by omega), Function.update_noteq (by omega)]

/-- Within the loop, every enc entry written at index i is also written
to dec at index 31 - i: the two buffers are mirror images on the range
the loop covers. -/
theorem sm4KeyRounds_pair (sbox : Fin 256 → Fin 256) (ck : Nat → Nat) :
    ∀ (f j : Nat) (st : sm4KeyState) (i : Nat),
      4 * j ≤ i → i < 4 * j + 4 * f → j + f ≤ 8 →
      (sm4KeyRounds sbox ck j f st).enc i = (sm4KeyRounds sbox ck j f st).dec (31 - i) := by
  intro f
  induction f with
  | zero => intro j st i h1 h2 _; omega
  | succ f ih =>
      intro j st i h1 h2 hj
      show (sm4KeyRounds sbox ck (j + 1) f (sm4KeyQuad sbox ck j st)).enc i =
        (sm4KeyRounds sbox ck (j + 1) f (sm4KeyQuad sbox ck j st)).dec (31 - i)
      rcases Nat.lt_or_ge i (4 * j + 4) with hcase | hcase
      · rw [sm4KeyRounds_enc_frame sbox ck f (j + 1) (sm4KeyQuad sbox ck j st) i (by omega),
          sm4KeyRounds_dec_frame sbox ck f (j + 1) (sm4KeyQuad sbox ck j st) (31 - i)
            (by omega) (by omega)]
        have hd0 : ((12 - 0 * 4) + (112 - 16 * j)) / 4 = 31 - 4 * j := by omega
        have hd1 : ((12 - 1 * 4) + (112 - 16 * j)) / 4 = 31 - (4 * j + 1) := by omega
        have hd2 : ((12 - 2 * 4) + (112 - 16 * j)) / 4 = 31 - (4 * j + 2) := by omega
        have hd3 : ((12 - 3 * 4) + (112 - 16 * j)) / 4 = 31 - (4 * j + 3) := by omega
        have hcases : i = 4 * j ∨ i = 4 * j + 1 ∨ i = 4 * j + 2 ∨ i = 4 * j + 3 := by omega
        simp only [sm4KeyQuad, hd0, hd1, hd2, hd3]
        rcases hcases with h | h | h | h <;> subst h
        · rw [Function.update_noteq (by omega), Function.update_noteq (by omega),
            Function.update_noteq (by omega)]
          rw [show (0 * 4 + 16 * j) / 4 = 4 * j from by omega, Function.update_same]
          rw [Function.update_noteq (by omega), Function.update_noteq (by omega),
            Function.update_noteq (by omega), Function.update_same]
        · rw [Function.update_noteq (by omega), Function.update_noteq (by omega)]
          rw [show (1 * 4 + 16 * j) / 4 = 4 * j + 1 from by omega, Function.update_same]
          rw [Function.update_noteq (by omega), Function.update_noteq (by omega),
            Function.update_same]
        · rw [Function.update_noteq (by omega)]
          rw [show (2 * 4 + 16 * j) / 4 = 4 * j + 2 from by omega, Function.update_same]
          rw [Function.update_noteq (by omega), Function.update_same]
        · rw [show (3 * 4 + 16 * j) / 4 = 4 * j + 3 from by omega, Function.update_same,
            Function.update_same]
      · exact ih (j + 1) _ i (by omega) (by omega) (by omega)

/-- C6.  The decryption round keys written by expandKeyAsm are the
encryption round keys in reverse order: dec[i] = enc[31 - i] for every
i up to 31, for every byte substitution, user key and CK table. -/
theorem expandKeyAsm_dec_reverse (sbox : Fin 256 → Fin 256) (mk : Fin 4 → Nat)
    (ck : Nat → Nat) (i : Nat) (h : i ≤ 31) :
    (expandKeyAsm sbox mk ck).2 i = (expandKeyAsm sbox mk ck).1 (31 - i) := by
  unfold expandKeyAsm
  dsimp only
  have hp := sm4KeyRounds_pair sbox ck 8 0
    { t0 := rev32 (mk 0) ^^^ 0xa3b1bac6,
      t1 := rev32 (mk 1) ^^^ 0x56aa3350,
      t2 := rev32 (mk 2) ^^^ 0x677d9197,
      t3 := rev32 (mk 3) ^^^ 0xb27022dc,
      enc := fun _ => 0,
      dec := fun _ => 0 } (31 - i) (by omega) (by omega) (by omega)
  rw [show 31 - (31 - i) = i from by omega] at hp
  exact hp.symm

/-- C6 witness: the identity byte map, the zero key and a zero CK table,
at i = 5. -/
theorem expandKeyAsm_dec_reverse_witness :
    (expandKeyAsm (fun b => b) (fun _ => 0) (fun _ => 0)).2 5 =
      (expandKeyAsm (fun b => b) (fun _ => 0) (fun _ => 0)).1 26 := by
  have h := expandKeyAsm_dec_reverse (fun b => b) (fun _ => 0) (fun _ => 0) 5 (by norm_num)
  simpa using h

/-- The 64 round constants listed in the SM3ROUND macro calls of the
source (the rotated T values, one per round). -/
def sm3KList : List Nat :=
  [0x79cc4519, 0xf3988a32, 0xe7311465, 0xce6228cb,
   0x9cc45197, 0x3988a32f, 0x7311465e, 0xe6228cbc,
   0xcc451979, 0x988a32f3, 0x311465e7, 0x6228cbce,
   0xc451979c, 0x88a32f39, 0x11465e73, 0x228cbce6,
   0x9d8a7a87, 0x3b14f50f, 0x7629ea1e, 0xec53d43c,
   0xd8a7a879, 0xb14f50f3, 0x629ea1e7, 0xc53d43ce,
   0x8a7a879d, 0x14f50f3b, 0x29ea1e76, 0x53d43cec,
   0xa7a879d8, 0x4f50f3b1, 0x9ea1e762, 0x3d43cec5,
   0x7a879d8a, 0xf50f3b14, 0xea1e7629, 0xd43cec53,
   0xa879d8a7, 0x50f3b14f, 0xa1e7629e, 0x43cec53d,
   0x879d8a7a, 0x0f3b14f5, 0x1e7629ea, 0x3cec53d4,
   0x79d8a7a8, 0xf3b14f50, 0xe7629ea1, 0xcec53d43,
   0x9d8a7a87, 0x3b14f50f, 0x7629ea1e, 0xec53d43c,
   0xd8a7a879, 0xb14f50f3, 0x629ea1e7, 0xc53d43ce,
   0x8a7a879d, 0x14f50f3b, 0x29ea1e76, 0x53d43cec,
   0xa7a879d8, 0x4f50f3b1, 0x9ea1e762, 0x3d43cec5]

/-- Round constant lookup. -/
def sm3K (j : Nat) : Nat := sm3KList.getD j 0

/-- 32-bit modular addition (ADDW). -/
def add32 (a b : Nat) : Nat := (a + b) % 4294967296

/-- 32-bit bitwise complement (MVNW). -/
def not32 (x : Nat) : Nat := x ^^^ 4294967295

/-- The eight SM3 working registers a..h. -/
structure sm3State where
  a : Nat
  b : Nat
  c : Nat
  d : Nat
  e : Nat
  f : Nat
  g : Nat
  h : Nat
deriving DecidableEq

/-- The eight digest words. -/
structure sm3Dig where
  h0 : Nat
  h1 : Nat
  h2 : Nat
  h3 : Nat
  h4 : Nat
  h5 : Nat
  h6 : Nat
  h7 : Nat
deriving DecidableEq

/-- Translation of SM3SS1: rotl7(rotl12(a) + e + constant), each ADDW
reducing modulo 2^32 (RORW 20 is rotl 12, RORW 25 is rotl 7). -/
def sm3SS1 (k a e : Nat) : Nat := rotl32 (add32 (add32 (rotl32 a 12) e) k) 7

/-- Translation of one round of the block body, given the buffer word
W[j] and the freshly scheduled word W[j+4]: SM3SS1, then SM3TT10/SM3TT20
(xor forms, rounds 0..15) or SM3TT11/SM3TT21 (majority/choice forms,
rounds 16..63) with their exact instruction order, then COPYRESULT,
whose register renaming realizes the state rotation
(A, B, C, D, E, F, G, H) to (TT1, A, rotl9 B, C, P0(TT2), E, rotl19 F, G). -/
def sm3RoundAsm (j wj w4 : Nat) (s : sm3State) : sm3State :=
  let ss1 := sm3SS1 (sm3K j) s.a s.e
  let tt1 :=
    if j < 16 then
      add32 (rotl32 s.a 12 ^^^ ss1) (add32 (add32 ((s.b ^^^ s.a) ^^^ s.c) s.d) (w4 ^^^ wj))
    else
      add32
        (add32 (rotl32 s.a 12 ^^^ ss1)
          (add32 (((s.b &&& s.c) ||| ((s.a &&& s.c) ||| (s.b &&& s.a)))) s.d))
        (w4 ^^^ wj)
  let tt2 :=
    if j < 16 then
      add32 ((s.e ^^^ s.f) ^^^ s.g) (add32 (add32 wj s.h) ss1)
    else
      add32 (((not32 s.e &&& s.g) ||| (s.f &&& s.e))) (add32 (add32 wj s.h) ss1)
  { a := tt1, b := s.a, c := rotl32 s.b 9, d := s.c,
    e := (rotl32 tt2 9 ^^^ tt2) ^^^ rotl32 tt2 17,
    f := s.e, g := rotl32 s.f 19, h := s.g }

/-- Translation of MSGSCHEDULE1: the message-schedule recurrence
computing W[idx+4] from five earlier buffer entries (RORW 17 is
rotl 15, RORW 9 is rotl 23, RORW 25 is rotl 7). -/
def sm3Sched1 (W : Nat → Nat) (idx : Nat) : Nat :=
  let x := (rotl32 (W (idx + 1)) 15 ^^^ W (idx - 12)) ^^^ W (idx - 5)
  let p1x := (x ^^^ rotl32 x 15) ^^^ rotl32 x 23
  (p1x ^^^ rotl32 (W (idx - 9)) 7) ^^^ W (idx - 2)

/-- One round of the loop body including its schedule phase: rounds
below 12 load W[j+4] from the message (MSGSCHEDULE01, a big-endian
load), later rounds compute it through the recurrence (MSGSCHEDULE1);
the word is stored into the buffer before the round body runs. -/
def sm3StepAsm (msg : Nat → Nat) (j : Nat) (sw : sm3State × (Nat → Nat)) :
    sm3State × (Nat → Nat) :=
  let w4 := if j < 12 then rev32 (msg (j + 4)) else sm3Sched1 sw.2 j
  let Wn := Function.update sw.2 (j + 4) w4
  (sm3RoundAsm j (Wn j) w4 sw.1, Wn)

/-- The 64-round loop of the block body, threading the register state
and the schedule buffer. -/
def sm3RoundsAsm (msg : Nat → Nat) : Nat → Nat → sm3State × (Nat → Nat) → sm3State × (Nat → Nat)
  | _, 0, sw => sw
  | j, f+1, sw => sm3RoundsAsm msg (j + 1) f (sm3StepAsm msg j sw)

/-- The initial schedule buffer: MSGSCHEDULE0 loads the first four
message words big-endian; the remaining entries are written before they
are read and start as zero. -/
def sm3InitW (msg : Nat → Nat) : Nat → Nat := fun k => if k < 4 then rev32 (msg k) else 0

/-- Translation of one iteration of the block function: load the state,
run the 64 rounds, xor the new state into the digest (the LDPW/EORW/STPW
epilogue). -/
def sm3BlockOneAsm (dig : sm3Dig) (msg : Nat → Nat) : sm3Dig :=
  let sw := sm3RoundsAsm msg 0 64
    ({ a := dig.h0, b := dig.h1, c := dig.h2, d := dig.h3,
       e := dig.h4, f := dig.h5, g := dig.h6, h := dig.h7 }, sm3InitW msg)
  { h0 := sw.1.a ^^^ dig.h0, h1 := sw.1.b ^^^ dig.h1,
    h2 := sw.1.c ^^^ dig.h2, h3 := sw.1.d ^^^ dig.h3,
    h4 := sw.1.e ^^^ dig.h4, h5 := sw.1.f ^^^ dig.h5,
    h6 := sw.1.g ^^^ dig.h6, h7 := sw.1.h ^^^ dig.h7 }

/-- The schedule buffer produced by a full 64-round pass. -/
def sm3AsmSchedule (msg : Nat → Nat) : Nat → Nat :=
  (sm3RoundsAsm msg 0 64
    ({ a := 0, b := 0, c := 0, d := 0, e := 0, f := 0, g := 0, h := 0 }, sm3InitW msg)).2

/-- The specified boolean function FF: xor for rounds 0..15, majority
afterwards. -/
def sm3FF (j a b c : Nat) : Nat :=
  if j < 16 then a ^^^ b ^^^ c else (a &&& b) ||| (a &&& c) ||| (b &&& c)

/-- The specified boolean function GG: xor for rounds 0..15, choice
afterwards. -/
def sm3GG (j e f g : Nat) : Nat :=
  if j < 16 then e ^^^ f ^^^ g else (e &&& f) ||| (not32 e &&& g)

/-- The specified permutation P0. -/
def sm3P0 (x : Nat) : Nat := x ^^^ rotl32 x 9 ^^^ rotl32 x 17

/-- The specified round constant T. -/
def sm3T (j : Nat) : Nat := if j < 16 then 0x79cc4519 else 0x7a879d8a

/-- One round exactly as the specification states it: SS1, SS2, TT1,
TT2 from FF, GG, W and the derived W-prime, and the state rotation with
P0. -/
def sm3RoundSpec (W : Nat → Nat) (j : Nat) (s : sm3State) : sm3State :=
  let ss1 := rotl32 ((rotl32 s.a 12 + s.e + rotl32 (sm3T j) (j % 32)) % 4294967296) 7
  let ss2 := ss1 ^^^ rotl32 s.a 12
  let tt1 := (sm3FF j s.a s.b s.c + s.d + ss2 + (W j ^^^ W (j + 4))) % 4294967296
  let tt2 := (sm3GG j s.e s.f s.g + s.h + ss1 + W j) % 4294967296
  { a := tt1, b := s.a, c := rotl32 s.b 9, d := s.c,
    e := sm3P0 tt2, f := s.e, g := rotl32 s.f 19, h := s.g }

/-- The specified 64-round iteration over a fixed schedule. -/
def sm3RoundsSpec (W : Nat → Nat) : Nat → Nat → sm3State → sm3State
  | _, 0, s => s
  | j, f+1, s => sm3RoundsSpec W (j + 1) f (sm3RoundSpec W j s)

/-- The specified compression: 64 rounds over the schedule, then each
digest word xored with the corresponding state word. -/
def sm3CompressSpec (dig : sm3Dig) (W : Nat → Nat) : sm3Dig :=
  let s := sm3RoundsSpec W 0 64
    { a := dig.h0, b := dig.h1, c := dig.h2, d := dig.h3,
      e := dig.h4, f := dig.h5, g := dig.h6, h := dig.h7 }
  { h0 := dig.h0 ^^^ s.a, h1 := dig.h1 ^^^ s.b,
    h2 := dig.h2 ^^^ s.c, h3 := dig.h3 ^^^ s.d,
    h4 := dig.h4 ^^^ s.e, h5 := dig.h5 ^^^ s.f,
    h6 := dig.h6 ^^^ s.g, h7 := dig.h7 ^^^ s.h }

/-- Each listed round constant equals the specified T constant rotated
left by the round index (reduced mod 32). -/
theorem sm3K_eq_rot : ∀ j, j < 64 → sm3K j = rotl32 (sm3T j) (j % 32) := by decide

/-- The xor order produced by the SM3TT2 epilogue equals the specified
permutation P0. -/
theorem sm3P0_asm (x : Nat) : (rotl32 x 9 ^^^ x) ^^^ rotl32 x 17 = sm3P0 x := by
  unfold sm3P0
  rw [Nat.xor_comm (rotl32 x 9) x]

/-- One assembly round, fed the buffer words W j and W (j+4), computes
exactly the specified round function. -/
theorem sm3RoundAsm_eq_spec (j : Nat) (hj : j < 64) (W : Nat → Nat) (s : sm3State) :
    sm3RoundAsm j (W j) (W (j + 4)) s = sm3RoundSpec W j s := by
  have hK : sm3K j = rotl32 (sm3T j) (j % 32) := sm3K_eq_rot j hj
  unfold sm3RoundAsm sm3RoundSpec sm3SS1
  dsimp only
  rw [hK]
  by_cases h16 : j < 16
  · simp only [sm3FF, sm3GG, if_pos h16]
    congr 1
    · simp only [add32, Nat.mod_add_mod, Nat.add_mod_mod]
      rw [Nat.xor_comm s.b s.a, Nat.xor_comm (W (j + 4)) (W j),
        Nat.xor_comm (rotl32 s.a 12)]
      omega
    · rw [sm3P0_asm]
      congr 1
      simp only [add32, Nat.mod_add_mod, Nat.add_mod_mod]
      omega
  · simp only [sm3FF, sm3GG, if_neg h16]
    congr 1
    · simp only [add32, Nat.mod_add_mod, Nat.add_mod_mod]
      rw [Nat.and_comm s.b s.a, Nat.or_comm (s.a &&& s.c) (s.a &&& s.b),
        Nat.or_comm (s.b &&& s.c) ((s.a &&& s.b) ||| (s.a &&& s.c)),
        Nat.xor_comm (W (j + 4)) (W j), Nat.xor_comm (rotl32 s.a 12)]
      omega
    · rw [sm3P0_asm]
      congr 1
      simp only [add32, Nat.mod_add_mod, Nat.add_mod_mod]
      rw [Nat.and_comm s.f s.e, Nat.or_comm (not32 s.e &&& s.g) (s.e &&& s.f)]
      omega

/-- Rounds starting at j never change buffer entries below j + 4. -/
theorem sm3RoundsAsm_snd_stable (msg : Nat → Nat) :
    ∀ f j sw k, k < j + 4 → (sm3RoundsAsm msg j f sw).2 k = sw.2 k := by
  intro f
  induction f with
  | zero => intro j sw k hk; rfl
  | succ n ih =>
      intro j sw k hk
      have h1 : sm3RoundsAsm msg j (n + 1) sw
          = sm3RoundsAsm msg (j + 1) n (sm3StepAsm msg j sw) := rfl
      rw [h1, ih (j + 1) _ k (by omega)]
      show Function.update sw.2 (j + 4) _ k = sw.2 k
      exact Function.update_noteq (by omega) _ _

/-- The schedule buffer produced by the rounds does not depend on the
register state they start from. -/
theorem sm3RoundsAsm_snd_state_free (msg : Nat → Nat) :
    ∀ f j s t W, (sm3RoundsAsm msg j f (s, W)).2 = (sm3RoundsAsm msg j f (t, W)).2 := by
  intro f
  induction f with
  | zero => intro j s t W; rfl
  | succ n ih =>
      intro j s t W
      exact ih (j + 1) _ _ _

/-- The register state after the assembly rounds is the specified round
iteration evaluated over the final schedule buffer. -/
theorem sm3RoundsAsm_fst_spec (msg : Nat → Nat) :
    ∀ f j s W, j + f ≤ 64 →
      (sm3RoundsAsm msg j f (s, W)).1
        = sm3RoundsSpec ((sm3RoundsAsm msg j f (s, W)).2) j f s := by
  intro f
  induction f with
  | zero => intro j s W hjf; rfl
  | succ n ih =>
      intro j s W hjf
      have hW4 : ((sm3RoundsAsm msg j (n + 1) (s, W)).2) (j + 4)
          = (if j < 12 then rev32 (msg (j + 4)) else sm3Sched1 W j) := by
        have h1 : (sm3RoundsAsm msg j (n + 1) (s, W)).2
            = (sm3RoundsAsm msg (j + 1) n (sm3StepAsm msg j (s, W))).2 := rfl
        rw [h1, sm3RoundsAsm_snd_stable msg n (j + 1) _ (j + 4) (by omega)]
        show Function.update W (j + 4) _ (j + 4) = _
        rw [Function.update_same]
      have hWj : ((sm3RoundsAsm msg j (n + 1) (s, W)).2) j = W j := by
        have h1 : (sm3RoundsAsm msg j (n + 1) (s, W)).2
            = (sm3RoundsAsm msg (j + 1) n (sm3StepAsm msg j (s, W))).2 := rfl
        rw [h1, sm3RoundsAsm_snd_stable msg n (j + 1) _ j (by omega)]
        show Function.update W (j + 4) _ j = _
        exact Function.update_noteq (by omega) _ _
      calc (sm3RoundsAsm msg j (n + 1) (s, W)).1
          = (sm3RoundsAsm msg (j + 1) n (sm3StepAsm msg j (s, W))).1 := rfl
        _ = sm3RoundsSpec ((sm3RoundsAsm msg (j + 1) n (sm3StepAsm msg j (s, W))).2)
              (j + 1) n (sm3StepAsm msg j (s, W)).1 := ih (j + 1) _ _ (by omega)
        _ = sm3RoundsSpec ((sm3RoundsAsm msg j (n + 1) (s, W)).2) (j + 1) n
              (sm3StepAsm msg j (s, W)).1 := rfl
        _ = sm3RoundsSpec ((sm3RoundsAsm msg j (n + 1) (s, W)).2) (j + 1) n
              (sm3RoundSpec ((sm3RoundsAsm msg j (n + 1) (s, W)).2) j s) := by
              congr 1
              have h2 : (sm3StepAsm msg j (s, W)).1
                  = sm3RoundAsm j
                      (Function.update W (j + 4)
                        (if j < 12 then rev32 (msg (j + 4)) else sm3Sched1 W j) j)
                      (if j < 12 then rev32 (msg (j + 4)) else sm3Sched1 W j) s := rfl
              rw [h2, Function.update_noteq (by omega)]
              rw [← hWj, ← hW4]
              exact sm3RoundAsm_eq_spec j (by omega) _ s
        _ = sm3RoundsSpec ((sm3RoundsAsm msg j (n + 1) (s, W)).2) j (n + 1) s := rfl

/-- C5: for each complete 64-byte block, the SM3 block function computes
the 64 rounds exactly as specified (SS1 = rotl7(rotl12(A)+E+rotl_j(T_j)),
SS2 = SS1 xor rotl12(A), TT1 = FF_j(A,B,C)+D+SS2+(W[j] xor W[j+4]),
TT2 = GG_j(E,F,G)+H+SS1+W[j], state rotation C = rotl9(B), G = rotl19(F),
E = P0(TT2)) over the schedule buffer it fills, and then replaces every
digest word h_i by h_i xor the corresponding round-output word. -/
theorem sm3BlockOneAsm_eq_spec (dig : sm3Dig) (msg : Nat → Nat) :
    sm3BlockOneAsm dig msg = sm3CompressSpec dig (sm3AsmSchedule msg) := by
  have h1 := sm3RoundsAsm_fst_spec msg 64 0
    { a := dig.h0, b := dig.h1, c := dig.h2, d := dig.h3,
      e := dig.h4, f := dig.h5, g := dig.h6, h := dig.h7 } (sm3InitW msg) (by omega)
  have h2 : (sm3RoundsAsm msg 0 64
      ({ a := dig.h0, b := dig.h1, c := dig.h2, d := dig.h3,
         e := dig.h4, f := dig.h5, g := dig.h6, h := dig.h7 }, sm3InitW msg)).2
      = sm3AsmSchedule msg :=
    sm3RoundsAsm_snd_state_free msg 64 0 _ _ (sm3InitW msg)
  rw [h2] at h1
  unfold sm3BlockOneAsm sm3CompressSpec
  dsimp only
  rw [h1]
  congr 1 <;> exact Nat.xor_comm _ _

/-- Little-endian 32-bit load (MOVW) of four bytes of p at offset o,
missing bytes reading as zero. -/
def leWord (p : List Nat) (o : Nat) : Nat :=
  p.getD o 0 + 256 * (p.getD (o + 1) 0 + 256 * (p.getD (o + 2) 0 + 256 * p.getD (o + 3) 0))

/-- The word view of the block starting at byte offset base, as the
assembly loads it (MOVW at SI + 4*index). -/
def sm3BlockMsg (p : List Nat) (base : Nat) : Nat → Nat := fun k => leWord p (base + 4 * k)

/-- The block loop: process n consecutive 64-byte blocks starting at
byte offset base (ADD $64, SI between iterations). -/
def sm3BlockLoop (p : List Nat) : Nat → Nat → sm3Dig → sm3Dig
  | _, 0, dig => dig
  | base, n+1, dig => sm3BlockLoop p (base + 64) n (sm3BlockOneAsm dig (sm3BlockMsg p base))

/-- Translation of the block entry point: the length is masked with
~63 (AND $~63, DX); if the result is zero the function returns at once
(CBZ DX, end), otherwise the loop runs until SI reaches base + masked
length, one 64-byte block per iteration. -/
def sm3BlockAsm (dig : sm3Dig) (p : List Nat) : sm3Dig :=
  let n := p.length &&& 0xFFFFFFFFFFFFFFC0
  if n = 0 then dig else sm3BlockLoop p 0 (n / 64) dig

/-- Masking a 64-bit length with ~63 rounds it down to a multiple of 64. -/
theorem and_mask64 (x : Nat) (hx : x < 2 ^ 64) :
    x &&& 0xFFFFFFFFFFFFFFC0 = x / 64 * 64 := by
  have hm : (0xFFFFFFFFFFFFFFC0 : Nat) = (2 ^ 58 - 1) <<< 6 := by
    rw [Nat.shiftLeft_eq]; norm_num
  have h1 : x / 64 * 64 = (x >>> 6) <<< 6 := by
    rw [Nat.shiftRight_eq_div_pow, Nat.shiftLeft_eq]
  rw [hm, h1]
  apply Nat.eq_of_testBit_eq
  intro i
  rw [Nat.testBit_and, Nat.testBit_shiftLeft, Nat.testBit_shiftLeft,
    Nat.testBit_two_pow_sub_one, Nat.testBit_shiftRight]
  by_cases h6 : 6 ≤ i
  · rw [Nat.add_sub_cancel' h6]
    by_cases h58 : i - 6 < 58
    · simp [h6, h58]
    · have hfalse : x.testBit i = false :=
        Nat.testBit_lt_two_pow (lt_of_lt_of_le hx (Nat.pow_le_pow_right (by norm_num) (by omega)))
      simp [h58, hfalse]
  · have hfalse : ¬ (6 ≤ i) := h6
    simp [hfalse]

/-- C10: the block function consumes only complete 64-byte blocks — it
processes exactly floor(len(p)/64) blocks of the input, and for every
input shorter than 64 bytes it returns the eight digest state words
completely unchanged. -/
theorem sm3BlockAsm_whole_blocks (dig : sm3Dig) (p : List Nat) (hp : p.length < 2 ^ 64) :
    sm3BlockAsm dig p = sm3BlockLoop p 0 (p.length / 64) dig
      ∧ (p.length < 64 → sm3BlockAsm dig p = dig) := by
  have hmask := and_mask64 p.length hp
  have hmain : sm3BlockAsm dig p = sm3BlockLoop p 0 (p.length / 64) dig := by
    unfold sm3BlockAsm
    dsimp only
    rw [hmask, Nat.mul_div_cancel _ (by norm_num : (0:Nat) < 64)]
    by_cases hz : p.length / 64 = 0
    · rw [hz]
      simp [sm3BlockLoop]
    · rw [if_neg (by omega)]
  refine ⟨hmain, fun hlt => ?_⟩
  rw [hmain, Nat.div_eq_of_lt hlt]
  rfl

/-- Witness: a 10-byte input is below one block, the loop count is
floor(10/64) = 0, and the digest is returned unchanged. -/
theorem sm3BlockAsm_whole_blocks_witness :
    (List.replicate 10 0).length < 2 ^ 64 ∧
      (sm3BlockAsm ⟨1, 2, 3, 4, 5, 6, 7, 8⟩ (List.replicate 10 0)
          = sm3BlockLoop (List.replicate 10 0) 0 ((List.replicate 10 0).length / 64)
              ⟨1, 2, 3, 4, 5, 6, 7, 8⟩
        ∧ ((List.replicate 10 0).length < 64 →
            sm3BlockAsm ⟨1, 2, 3, 4, 5, 6, 7, 8⟩ (List.replicate 10 0)
              = ⟨1, 2, 3, 4, 5, 6, 7, 8⟩)) :=
  ⟨by norm_num, sm3BlockAsm_whole_blocks ⟨1, 2, 3, 4, 5, 6, 7, 8⟩ (List.replicate 10 0)
    (by norm_num)⟩
